import Mathlib

/-!
# Verification of the jsonmanu library (Go) against its specification

This file shallowly embeds the core of the `jsonmanu` Go library:

* the JSON-like value model (`map[string]any` / `[]any` / scalars decoded from
  JSON) as the mutual inductive family `JValue` / `JList` / `JMap`;
* the node data accessors of `node.go` (`node`, `arrayIndexedNode`,
  `arraySlicedNode`, `arrayFilteredNode`) with their `get`/`put` methods and
  `validateNodeData`;
* the JSONPath tokenizer and `nodeFromJsonPathSubNode` / `parseJsonPath`
  (regular-expression token patterns are embedded as equivalent recognizers
  over character lists);
* the deep search/replace utilities of `utils.go`
  (`flattenArray`, `mapGetDeep`, `mapGetDeepFlattened`, `mapPutDeep`);
* the tree walker `walkNodes` and the public `Get`;
* the public `Put`, including `ensureDataStrunctureFromNodes`.  Go mutates the
  tree in place through aliases produced by the walk; the embedding mirrors
  this by running the same walk over path addresses (`WData`) into the root
  and applying the final writes through those addresses;
* the `Mapper` / `Map` orchestration layer of `map.go` and the transformers of
  `transformations.go`.

Modelling conventions:

* Go `float64` is modelled by `ℚ`; `strconv.ParseFloat` is modelled for plain
  decimal literals (optional sign, digits, optional fraction), which covers
  every numeric string the library's tests exercise.  Exotic float syntax
  (exponents, hex floats, Inf/NaN) is outside the model.
* Go maps are unordered with unique keys; `JMap` is an ordered association
  list.  Where iteration order matters the model fixes the list order.
* Trees decoded from JSON are acyclic and unshared; typed-nil maps (the only
  way to hit the `dataValidationErrorNotMap` branch of `validateNodeData`)
  do not occur in such trees, so that branch is unreachable in the model.
* Go runtime panics (failed type assertions, out-of-range slice expressions)
  are modelled by an explicit `goPanic` outcome.
* `regexp.FindString` and `fmt.Sprintf "%v"` (used only by
  `StringMatchTransformer` and `JoinTransformer`) are modelled as
  uninterpreted function parameters.
-/

deriving instance DecidableEq for Except

namespace Jsonmanu

-- JSON-like dynamic value: the decoded form of a JSON document
-- (`nil` / `bool` / `float64` / `string` / `[]any` / `map[string]any`).
mutual
inductive JValue where
  | vNull : JValue
  | vBool (b : Bool) : JValue
  | vNum (q : ℚ) : JValue
  | vStr (s : String) : JValue
  | arr (items : JList) : JValue
  | obj (fields : JMap) : JValue
  deriving DecidableEq

inductive JList where
  | nil : JList
  | cons (hd : JValue) (tl : JList) : JList
  deriving DecidableEq

inductive JMap where
  | nil : JMap
  | cons (key : String) (val : JValue) (tl : JMap) : JMap
  deriving DecidableEq
end

namespace JList

/-- Convert a `JList` to a Lean list. -/
def toList : JList → List JValue
  | .nil => []
  | .cons v tl => v :: toList tl

/-- Convert a Lean list to a `JList`. -/
def ofList : List JValue → JList
  | [] => .nil
  | v :: tl => .cons v (ofList tl)

/-- Length of a `JList` (Go `len`). -/
def length (l : JList) : Nat := (toList l).length

end JList

namespace JMap

/-- Entries of a `JMap` as a Lean list. -/
def toList : JMap → List (String × JValue)
  | .nil => []
  | .cons k v tl => (k, v) :: toList tl

/-- Build a `JMap` from a Lean list of entries. -/
def ofList : List (String × JValue) → JMap
  | [] => .nil
  | (k, v) :: tl => .cons k v (ofList tl)

end JMap

/-- Go `v, ok := m[k]`: lookup of a key in a map (first matching entry;
Go maps have unique keys). -/
def jmapLookup (m : JMap) (k : String) : Option JValue :=
  match m with
  | .nil => none
  | .cons k' v tl => if k' = k then some v else jmapLookup tl k

/-- Go `m[k]` used as a value: `nil` (here `vNull`) when the key is absent. -/
def jmapGet (m : JMap) (k : String) : JValue :=
  (jmapLookup m k).getD .vNull

/-- Go `m[k] = v`: replace the value of an existing key, or append a new
entry (Go maps are unordered; the model keeps the entry position). -/
def jmapSet (m : JMap) (k : String) (v : JValue) : JMap :=
  match m with
  | .nil => .cons k v .nil
  | .cons k' v' tl => if k' = k then .cons k' v tl else .cons k' v' (jmapSet tl k v)

/-- `mapHasKey` of `utils.go`: whether a key exists in a map. -/
def mapHasKey (m : JMap) (k : String) : Bool :=
  match m with
  | .nil => false
  | .cons k' _ tl => k' = k || mapHasKey tl k

/-- `isMap` of `utils.go` (reflect kind check). -/
def isMap : JValue → Bool
  | .obj _ => true
  | _ => false

/-- `isSlice` of `utils.go` (reflect kind check). -/
def isSlice : JValue → Bool
  | .arr _ => true
  | _ => false

/-- `isMapOrSlice` of `utils.go`. -/
def isMapOrSlice (v : JValue) : Bool := isMap v || isSlice v

/-- `isString` of `utils.go`. -/
def isString : JValue → Bool
  | .vStr _ => true
  | _ => false

/-! ## Numeric coercion (`toFloat64`, `strconv.ParseFloat`, `strconv.Atoi`) -/

/-- Numeric value of a decimal digit character. -/
def digitVal (c : Char) : ℕ := c.toNat - ('0').toNat

/-- Accumulate a digit run into a natural number (base 10). -/
def digitsToNat (acc : ℕ) : List Char → ℕ
  | [] => acc
  | c :: tl => digitsToNat (acc * 10 + digitVal c) tl

/-- Split a character list at every occurrence of a separator character
(Go `strings.Split` for a one-character separator). -/
def splitOnChar (c : Char) : List Char → List (List Char)
  | [] => [[]]
  | x :: tl =>
    match splitOnChar c tl with
    | [] => [[]]
    | h :: t => if x = c then [] :: h :: t else (x :: h) :: t

/-- Model of `strconv.ParseFloat` restricted to plain decimal literals:
optional sign, then `digits`, `digits.digits`, `digits.` or `.digits`.
Exponents, hex floats, `Inf`/`NaN` and digit underscores are outside the
model; no string the library's call sites feed in uses them. -/
def parseGoFloat (s : String) : Option ℚ :=
  let sign : Int × List Char :=
    match s.data with
    | '-' :: r => (-1, r)
    | '+' :: r => (1, r)
    | cs => (1, cs)
  match splitOnChar '.' sign.2 with
  | [intPart] =>
    if intPart.all Char.isDigit ∧ intPart ≠ [] then
      some (mkRat (sign.1 * (digitsToNat 0 intPart : Int)) 1)
    else none
  | [intPart, fracPart] =>
    if intPart.all Char.isDigit ∧ fracPart.all Char.isDigit ∧
        ¬(intPart = [] ∧ fracPart = []) then
      some (mkRat
        (sign.1 *
          ((digitsToNat 0 intPart * 10 ^ fracPart.length + digitsToNat 0 fracPart : ℕ) : Int))
        (10 ^ fracPart.length))
    else none
  | _ => none

/-- Model of `strconv.Atoi` as used by the token matchers: the call sites
discard the error (`indexInt, _ := strconv.Atoi(...)`), so a failed parse
yields the zero value `0`. -/
def goAtoi (s : String) : Int :=
  match s.data with
  | '-' :: r => if r.all Char.isDigit ∧ r ≠ [] then -(digitsToNat 0 r : Int) else 0
  | '+' :: r => if r.all Char.isDigit ∧ r ≠ [] then (digitsToNat 0 r : Int) else 0
  | cs => if cs.all Char.isDigit ∧ cs ≠ [] then (digitsToNat 0 cs : Int) else 0

/-- `toFloat64` of `utils.go`: numeric Go values convert directly (all are
modelled by `vNum`), strings go through `strconv.ParseFloat`, anything else
is an error (modelled by `none`). -/
def toFloat64 : JValue → Option ℚ
  | .vNum q => some q
  | .vStr s => parseGoFloat s
  | _ => none

/-- Go `value.(string)` on a value already known to satisfy `isString`. -/
def asGoString : JValue → String
  | .vStr s => s
  | _ => ""

/-- Lexicographic comparison of character lists.  Go compares strings
byte-wise over UTF-8; UTF-8 byte order coincides with code-point order, so
this is Go `s1 < s2`. -/
def charListLt : List Char → List Char → Bool
  | [], [] => false
  | [], _ :: _ => true
  | _ :: _, [] => false
  | c1 :: t1, c2 :: t2 =>
    if c1 < c2 then true else if c2 < c1 then false else charListLt t1 t2

/-- Go `s1 < s2` on strings. -/
def goStringLt (s1 s2 : String) : Bool := charListLt s1.data s2.data

/-- Go `s1 <= s2` on strings. -/
def goStringLe (s1 s2 : String) : Bool := !goStringLt s2 s1

/-- `assertCondition` of `node.go`: first attempt a float comparison, then a
string comparison, otherwise `false`.  The source's `case ">"` string branch
really is `val1.(string) < val2.(string)` (not `>`); the embedding preserves
it. -/
def assertCondition (val1 val2 : JValue) (op : String) : Bool :=
  let f1 := toFloat64 val1
  let f2 := toFloat64 val2
  let areFloats := f1.isSome && f2.isSome
  let fval1 := f1.getD 0
  let fval2 := f2.getD 0
  let bothStr := isString val1 && isString val2
  let s1 := asGoString val1
  let s2 := asGoString val2
  if op = "<" then
    if areFloats then decide (fval1 < fval2)
    else if bothStr then goStringLt s1 s2 else false
  else if op = ">" then
    if areFloats then decide (fval1 > fval2)
    else if bothStr then goStringLt s1 s2 else false
  else if op = "<=" then
    if areFloats then decide (fval1 ≤ fval2)
    else if bothStr then goStringLe s1 s2 else false
  else if op = ">=" then
    if areFloats then decide (fval1 ≥ fval2)
    else if bothStr then goStringLe s2 s1 else false
  else if op = "==" then
    if areFloats then decide (fval1 = fval2)
    else if bothStr then decide (s1 = s2) else false
  else if op = "!=" then
    if areFloats then decide (fval1 ≠ fval2)
    else if bothStr then decide (¬ s1 = s2) else false
  else false

/-! ## Node data accessors (`node.go`) -/

/-- The node data accessors produced by the JSONPath token patterns:
`node`, `arrayIndexedNode`, `arraySlicedNode`, `arrayFilteredNode` of
`node.go`.  The Go structs embed `node`; the model is a closed sum.  The
`value` of a filtered node is `any` in Go and `nil` when unset. -/
inductive NodeAccessor where
  | node (name : String)
  | arrayIndexedNode (name : String) (indices : List Int)
  | arraySlicedNode (name : String) (start stop : Int)
  | arrayFilteredNode (name : String) (key : String) (op : String) (value : Option JValue)
  deriving DecidableEq

/-- `getName` of the accessors. -/
def getName : NodeAccessor → String
  | .node name => name
  | .arrayIndexedNode name _ => name
  | .arraySlicedNode name _ _ => name
  | .arrayFilteredNode name _ _ _ => name

/-- `isArrayNode` of `node.go`. -/
def isArrayNode : NodeAccessor → Bool
  | .arrayIndexedNode _ _ => true
  | .arraySlicedNode _ _ _ => true
  | .arrayFilteredNode _ _ _ _ => true
  | _ => false

/-- Error kinds of `dataValidationError` (`node.go`). -/
inductive DataValidationErrorType where
  | notMap
  | keyNotFound
  | valueNotArray
  deriving DecidableEq

/-- `dataValidationError` of `node.go`.  The Go struct also carries the
offending `data`/`value` payloads, used only to format messages; the model
keeps the key and the kind. -/
structure DataValidationError where
  key : String
  errorType : DataValidationErrorType
  deriving DecidableEq

/-- `validateNodeData` of `node.go`.  The `data == nil` branch (a typed nil
map, yielding `dataValidationErrorNotMap`) cannot occur for trees decoded
from JSON, so it is unreachable in the model. -/
def validateNodeData (n : NodeAccessor) (data : JMap) : Option DataValidationError :=
  let nodeName := getName n
  if ¬ mapHasKey data nodeName then some ⟨nodeName, .keyNotFound⟩
  else if isArrayNode n ∧ ¬ isSlice (jmapGet data nodeName) then
    some ⟨nodeName, .valueNotArray⟩
  else none

/-- Outcome of a node-level operation: a value, a `dataValidationError`, or a
Go runtime panic (failed type assertion / out-of-range slice expression). -/
inductive GoRes (α : Type) where
  | ok (a : α)
  | err (e : DataValidationError)
  | goPanic
  deriving DecidableEq

/-- Go slice expression `l[lo:hi]` (with `cap = len`, as for freshly decoded
data): the subslice when `0 ≤ lo ≤ hi ≤ len`, otherwise a runtime panic. -/
def goSlice (l : List JValue) (lo hi : Int) : Option (List JValue) :=
  if 0 ≤ lo ∧ lo ≤ hi ∧ hi ≤ (l.length : Int) then
    some ((l.take hi.toNat).drop lo.toNat)
  else none

/-- The index projection loop of `arrayIndexedNode.get`: listed indices in
order, silently skipping every index `< 0` or `≥ len`. -/
def indexedProject (l : List JValue) : List Int → List JValue
  | [] => []
  | i :: rest =>
    if i < 0 ∨ (l.length : Int) ≤ i then indexedProject l rest
    else l.getD i.toNat .vNull :: indexedProject l rest

/-- The assignment loop of `arrayIndexedNode.put`: set every in-range listed
index to the new value. -/
def indexedAssign (l : List JValue) (newVal : JValue) : List Int → List JValue
  | [] => l
  | i :: rest =>
    indexedAssign
      (if i < 0 ∨ (l.length : Int) ≤ i then l else l.set i.toNat newVal) newVal rest

/-- Overwrite the elements of positions `[lo, hi)` (the loop of
`arraySlicedNode.put` over the resliced view, which shares its backing
array with the original). -/
def setRange (l : List JValue) (lo hi : ℕ) (newVal : JValue) : List JValue :=
  l.mapIdx (fun i v => if lo ≤ i ∧ i < hi then newVal else v)

/-- The selection test of `arrayFilteredNode`: selected when the node has no
operator, no comparison value, or the condition holds. -/
def filteredKeep (op : String) (cmpVal : Option JValue) (itemVal : JValue) : Bool :=
  decide (op = "") || cmpVal.isNone || assertCondition itemVal (cmpVal.getD .vNull) op

/-- The loop of `arrayFilteredNode.get`: items lacking the key are skipped;
a non-map item panics on the `item.(map[string]any)` assertion. -/
def filteredGetLoop (key op : String) (cmpVal : Option JValue) :
    List JValue → GoRes (List JValue)
  | [] => .ok []
  | item :: rest =>
    match item with
    | .obj fs =>
      match jmapLookup fs key with
      | none =>
        filteredGetLoop key op cmpVal rest
      | some v =>
        match filteredGetLoop key op cmpVal rest with
        | .ok r => if filteredKeep op cmpVal v then .ok (item :: r) else .ok r
        | other => other
    | _ => .goPanic

/-- The loop of `arrayFilteredNode.put`: set `key` on every selected item;
items lacking the key are left alone. -/
def filteredPutLoop (key op : String) (cmpVal : Option JValue) (newVal : JValue) :
    List JValue → GoRes (List JValue)
  | [] => .ok []
  | item :: rest =>
    match item with
    | .obj fs =>
      let item1 :=
        match jmapLookup fs key with
        | none => item
        | some currValue =>
          if filteredKeep op cmpVal currValue then .obj (jmapSet fs key newVal) else item
      match filteredPutLoop key op cmpVal newVal rest with
      | .ok r => .ok (item1 :: r)
      | other => other
    | _ => .goPanic

/-- The `get` methods of the four accessors (`node.go`).  Each validates
first; the array accessors then read `data[name]`, which validation
guarantees to be an array (`.arr`); the catch-all models the impossible
type assertion. -/
def nodeGet (n : NodeAccessor) (data : JMap) : GoRes JValue :=
  match validateNodeData n data with
  | some e => .err e
  | none =>
    match n with
    | .node name => .ok (jmapGet data name)
    | .arrayIndexedNode name indices =>
      match jmapGet data name with
      | .arr l =>
        if indices = [] then .ok (.arr l)
        else .ok (.arr (JList.ofList (indexedProject l.toList indices)))
      | _ => .goPanic
    | .arraySlicedNode name start stop =>
      match jmapGet data name with
      | .arr l =>
        if start ≠ 0 ∧ stop ≠ 0 then
          match goSlice l.toList start stop with
          | some r => .ok (.arr (JList.ofList r))
          | none => .goPanic
        else if start ≠ 0 ∧ stop = 0 then
          match goSlice l.toList start (l.toList.length : Int) with
          | some r => .ok (.arr (JList.ofList r))
          | none => .goPanic
        else if start = 0 ∧ stop ≠ 0 then
          match goSlice l.toList 0 stop with
          | some r => .ok (.arr (JList.ofList r))
          | none => .goPanic
        else .ok (.obj data)
      | _ => .goPanic
    | .arrayFilteredNode name key op value =>
      match jmapGet data name with
      | .arr l =>
        match filteredGetLoop key op value l.toList with
        | .ok r => .ok (.arr (JList.ofList r))
        | .err e => .err e
        | .goPanic => .goPanic
      | _ => .goPanic

/-- The `put` methods of the four accessors (`node.go`).  The result is the
updated parent map (Go mutates it in place).  For a plain `node`,
`keyNotFound` is not an error: the key is created.  `arraySlicedNode.put`
reslices first (panicking on bad bounds) and then overwrites the resliced
range, which aliases the original backing array. -/
def nodePut (n : NodeAccessor) (data : JMap) (value : JValue) : GoRes JMap :=
  match n with
  | .node name =>
    match validateNodeData n data with
    | some e =>
      if e.errorType ≠ .keyNotFound then .err e else .ok (jmapSet data name value)
    | none => .ok (jmapSet data name value)
  | .arrayIndexedNode name indices =>
    match validateNodeData n data with
    | some e => .err e
    | none =>
      match jmapGet data name with
      | .arr l => .ok (jmapSet data name (.arr (JList.ofList (indexedAssign l.toList value indices))))
      | _ => .goPanic
  | .arraySlicedNode name start stop =>
    match validateNodeData n data with
    | some e => .err e
    | none =>
      match jmapGet data name with
      | .arr l =>
        let len : Int := (l.toList.length : Int)
        if start ≠ 0 ∧ stop ≠ 0 then
          if 0 ≤ start ∧ start ≤ stop ∧ stop ≤ len then
            .ok (jmapSet data name (.arr (JList.ofList (setRange l.toList start.toNat stop.toNat value))))
          else .goPanic
        else if start ≠ 0 ∧ stop = 0 then
          if 0 ≤ start ∧ start ≤ len then
            .ok (jmapSet data name (.arr (JList.ofList (setRange l.toList start.toNat l.toList.length value))))
          else .goPanic
        else if start = 0 ∧ stop ≠ 0 then
          if 0 ≤ stop ∧ stop ≤ len then
            .ok (jmapSet data name (.arr (JList.ofList (setRange l.toList 0 stop.toNat value))))
          else .goPanic
        else .ok data
      | _ => .goPanic
  | .arrayFilteredNode name key op cmpVal =>
    match validateNodeData n data with
    | some e => .err e
    | none =>
      match jmapGet data name with
      | .arr l =>
        match filteredPutLoop key op cmpVal value l.toList with
        | .ok r => .ok (jmapSet data name (.arr (JList.ofList r)))
        | .err e => .err e
        | .goPanic => .goPanic
      | _ => .goPanic

/-! ## JSONPath tokenizer and parser (`query.go`, `node.go`)

The Go token patterns are anchored regular expressions; the model embeds
each as an equivalent recognizer over character lists.  For acceptance an
anchored regex is equivalent to a deterministic scan; the only backtracking
point (`<` vs `<=` etc. in the filter pattern) is resolved by trying the
two-character operators first, which agrees with the regex because a
one-character operator followed by `=` can never complete a match. -/

/-- Go regexp `\w`: ASCII word character. -/
def isWordChar (c : Char) : Bool := c.isAlpha || c.isDigit || c = '_'

/-- Go regexp `\s`: ASCII space characters. -/
def isWsChar (c : Char) : Bool :=
  c = ' ' || c = '\t' || c = '\n' || c = '\r' || c = Char.ofNat 11 || c = Char.ofNat 12

/-- Split a token of shape `name[body]` (with `name` a nonempty word run and
the closing bracket last), the common frame of the array token patterns. -/
def splitTokenBracket (cs : List Char) : Option (List Char × List Char) :=
  let name := cs.takeWhile isWordChar
  match cs.dropWhile isWordChar with
  | '[' :: r =>
    if name ≠ [] ∧ r.getLast? = some ']' then some (name, r.dropLast) else none
  | _ => none

/-- State step of the DFA for the indices body pattern `( *\d+,? *)+`
(state 0: before any digit; 1: inside a digit run; 2: after a comma or a
space that follows digits). -/
def indicesStep (st : Option ℕ) (c : Char) : Option ℕ :=
  match st with
  | some 0 => if c = ' ' then some 0 else if c.isDigit then some 1 else none
  | some 1 =>
    if c.isDigit then some 1 else if c = ',' ∨ c = ' ' then some 2 else none
  | some 2 => if c = ' ' then some 2 else if c.isDigit then some 1 else none
  | _ => none

/-- Acceptance of the indices body pattern `( *\d+,? *)+` of
`jsonPathIndexedArrayNodePattern`. -/
def indicesBodyAccept (cs : List Char) : Bool :=
  match cs.foldl indicesStep (some 0) with
  | some 1 => true
  | some 2 => true
  | _ => false

/-- Go `strings.TrimSpace`. -/
def goTrimSpace (cs : List Char) : List Char :=
  ((cs.dropWhile Char.isWhitespace).reverse.dropWhile Char.isWhitespace).reverse

/-- The index extraction of the indexed-array branch of
`nodeFromJsonPathSubNode`: split the captured body on `,`, trim spaces,
`strconv.Atoi` with the error discarded. -/
def parseIndices (body : List Char) : List Int :=
  (splitOnChar ',' body).map (fun piece => goAtoi (String.mk (goTrimSpace piece)))

/-- Acceptance of a slice bound `-?\d*`. -/
def signDigits : List Char → Bool
  | '-' :: r => r.all Char.isDigit
  | cs => cs.all Char.isDigit

/-- The comparison operators of `jsonPathFilteredArrayNodePattern`, longest
first (see the section comment on backtracking). -/
def tryFilterOp (cs : List Char) : String × List Char :=
  match cs with
  | '<' :: '=' :: r => ("<=", r)
  | '>' :: '=' :: r => (">=", r)
  | '!' :: '=' :: r => ("!=", r)
  | '=' :: '=' :: r => ("==", r)
  | '<' :: r => ("<", r)
  | '>' :: r => (">", r)
  | _ => ("", cs)

/-- Recognizer for the bracket body `?(@.key\s*op?\s*value)` of
`jsonPathFilteredArrayNodePattern` (the name and outer brackets are handled
by `splitTokenBracket`); yields `(key, op, value)`. -/
def matchFilteredBody (body : List Char) : Option (String × String × String) :=
  match body with
  | '?' :: '(' :: '@' :: '.' :: r =>
    let key := r.takeWhile isWordChar
    if key = [] then none
    else
      let r1 := (r.dropWhile isWordChar).dropWhile isWsChar
      let opSplit := tryFilterOp r1
      let r2 := opSplit.2.dropWhile isWsChar
      let value := r2.takeWhile isWordChar
      match r2.dropWhile isWordChar with
      | [')'] => some (String.mk key, opSplit.1, String.mk value)
      | _ => none
  | _ => none

/-- `nodeFromJsonPathSubNode` of `node.go`: try the token patterns in the
source's order (full array, indexed array, sliced array, filtered array,
simple node); `none` models the `nil` return. -/
def nodeFromJsonPathSubNode (jsonPathSubNode : String) : Option NodeAccessor :=
  let cs := jsonPathSubNode.data
  match splitTokenBracket cs with
  | some (name, body) =>
    if body = ['*'] then some (.arrayIndexedNode (String.mk name) [])
    else if indicesBodyAccept body then
      some (.arrayIndexedNode (String.mk name) (parseIndices body))
    else
      match splitOnChar ':' body with
      | [s, e] =>
        if signDigits s ∧ signDigits e then
          some (.arraySlicedNode (String.mk name) (goAtoi (String.mk s)) (goAtoi (String.mk e)))
        else
          match matchFilteredBody body with
          | some (key, op, value) =>
            some (.arrayFilteredNode (String.mk name) key op (some (.vStr value)))
          | none => none
      | _ =>
        match matchFilteredBody body with
        | some (key, op, value) =>
          some (.arrayFilteredNode (String.mk name) key op (some (.vStr value)))
        | none => none
  | none =>
    if cs.all isWordChar then some (.node jsonPathSubNode)
    else if cs = ['*'] then some (.node "*")
    else none

/-- Go `strings.Replace(s, "@.", "@:", -1)` (leftmost, non-overlapping);
with swapped arguments it is also the restoring replacement. -/
def replacePair (a b c d : Char) : List Char → List Char
  | [] => []
  | [x] => [x]
  | x :: y :: rest =>
    if x = a ∧ y = b then c :: d :: replacePair a b c d rest
    else x :: replacePair a b c d (y :: rest)

/-- Whether two adjacent characters occur (Go `strings.Contains` for a
two-character substring). -/
def containsPair (a b : Char) : List Char → Bool
  | [] => false
  | [_] => false
  | x :: y :: rest => (x = a ∧ y = b) || containsPair a b (y :: rest)

/-- `splitJsonPath` of `query.go`: protect `@.` as `@:`, split on `.`,
restore `@.` in the affected tokens. -/
def splitJsonPath (jsonPath : String) : List String :=
  let protected_ := replacePair '@' '.' '@' ':' jsonPath.data
  let tokens := splitOnChar '.' protected_
  tokens.map (fun t =>
    if containsPair '@' ':' t then String.mk (replacePair '@' ':' '@' '.' t)
    else String.mk t)

/-- `jsonPathHasReccursiveDescent` of `query.go`: the path contains `..`. -/
def jsonPathHasReccursiveDescent (path : String) : Bool :=
  containsPair '.' '.' path.data

/-- The token loop of `parseJsonPath`, with the running token index used in
the error message. -/
def nodesFromTokens (i : ℕ) : List String → Except String (List NodeAccessor)
  | [] => .ok []
  | t :: rest =>
    match nodeFromJsonPathSubNode t with
    | none => .error ("Couldn't parse JSONPath substring " ++ toString i ++ ": " ++ t)
    | some n =>
      match nodesFromTokens (i + 1) rest with
      | .ok ns => .ok (n :: ns)
      | .error e => .error e

/-- Go `strings.HasPrefix(s, "$.")`. -/
def startsWithDollarDot (s : String) : Bool :=
  match s.data with
  | '$' :: '.' :: _ => true
  | _ => false

/-- `parseJsonPath` of `query.go`. -/
def parseJsonPath (jsonPath : String) : Except String (List NodeAccessor) :=
  if ¬ startsWithDollarDot jsonPath then
    .error "JSONPath should start with '$.'"
  else if jsonPath.data.getLast? = some '.' then
    .error "JSONPath should not end with '.'"
  else
    nodesFromTokens 0 (splitJsonPath jsonPath).tail

/-! ## Deep search and replace (`utils.go`) -/

mutual
/-- One step of `flattenArray` of `utils.go`: a non-slice item contributes
itself, a slice contributes its flattening. -/
def flattenOne : JValue → List JValue
  | .arr inner => flattenJList inner
  | v => [v]

/-- `flattenArray` of `utils.go`, over the model's `JList`. -/
def flattenJList : JList → List JValue
  | .nil => []
  | .cons v tl => flattenOne v ++ flattenJList tl
end

/-- `flattenArray` of `utils.go` over a Lean list. -/
def flattenArray (l : List JValue) : List JValue := l.flatMap flattenOne

mutual
/-- `mapGetDeep` of `utils.go`: all values stored under `key` at any depth;
a direct hit stops the descent of that branch, and nested results are
appended as single (nested-array) elements. -/
def mapGetDeep (key : String) : JValue → List JValue
  | .obj fs => if mapHasKey fs key then [jmapGet fs key] else mapGetDeepEntries key fs
  | .arr l => mapGetDeepItems key l
  | _ => []

/-- The map branch of `mapGetDeep`: recurse into every map-or-slice value. -/
def mapGetDeepEntries (key : String) : JMap → List JValue
  | .nil => []
  | .cons _ v tl =>
    (if isMapOrSlice v then
      match mapGetDeep key v with
      | [] => []
      | dv => [.arr (JList.ofList dv)]
    else []) ++ mapGetDeepEntries key tl

/-- The slice branch of `mapGetDeep`: recurse into every item. -/
def mapGetDeepItems (key : String) : JList → List JValue
  | .nil => []
  | .cons v tl =>
    (match mapGetDeep key v with
    | [] => []
    | dv => [.arr (JList.ofList dv)]) ++ mapGetDeepItems key tl
end

/-- `mapGetDeepFlattened` of `utils.go`. -/
def mapGetDeepFlattened (m : JValue) (key : String) : List JValue :=
  flattenArray (mapGetDeep key m)

mutual
/-- `mapPutDeep` of `utils.go`: set `key` where directly present (and stop
descending that branch), else recurse into map-or-slice children; on slices
recurse into every item.  The Go function always returns `nil`; the model
returns the updated tree. -/
def mapPutDeep (key : String) (value : JValue) : JValue → JValue
  | .obj fs =>
    if mapHasKey fs key then .obj (jmapSet fs key value)
    else .obj (mapPutDeepEntries key value fs)
  | .arr l => .arr (mapPutDeepItems key value l)
  | v => v

/-- The map branch of `mapPutDeep`. -/
def mapPutDeepEntries (key : String) (value : JValue) : JMap → JMap
  | .nil => .nil
  | .cons k v tl =>
    .cons k (if isMapOrSlice v then mapPutDeep key value v else v)
      (mapPutDeepEntries key value tl)

/-- The slice branch of `mapPutDeep`. -/
def mapPutDeepItems (key : String) (value : JValue) : JList → JList
  | .nil => .nil
  | .cons v tl => .cons (mapPutDeep key value v) (mapPutDeepItems key value tl)
end

/-! ## Tree walker and `Get` (`node.go`, `query.go`) -/

/-- The fan-out of `walkNodes` over an already-resolved slice: apply the
node's `get` to every element (each must be a map, or the
`item.(map[string]any)` assertion panics); the first error aborts. -/
def fanOutGet (n : NodeAccessor) : List JValue → GoRes (List JValue)
  | [] => .ok []
  | item :: rest =>
    match item with
    | .obj m =>
      match nodeGet n m with
      | .ok v =>
        match fanOutGet n rest with
        | .ok r => .ok (v :: r)
        | other => other
      | .err e => .err e
      | .goPanic => .goPanic
    | _ => .goPanic

/-- The loop of `walkNodes` of `node.go`, with the walked value and the
`prevHasReccursiveDescent` flag as explicit state. -/
def walkNodesLoop (walkedData : JValue) (prevHasReccursiveDescent : Bool) :
    List NodeAccessor → GoRes JValue
  | [] => .ok walkedData
  | n :: rest =>
    if getName n = "*" then walkNodesLoop walkedData prevHasReccursiveDescent rest
    else if getName n = "" then walkNodesLoop walkedData true rest
    else if isSlice walkedData then
      match walkedData with
      | .arr l =>
        match fanOutGet n l.toList with
        | .ok items => walkNodesLoop (.arr (JList.ofList items)) prevHasReccursiveDescent rest
        | .err e => .err e
        | .goPanic => .goPanic
      | _ => .goPanic
    else if prevHasReccursiveDescent then
      let deepMatches := mapGetDeepFlattened walkedData (getName n)
      if isArrayNode n then
        let walkedDataWithKey : JMap := .cons (getName n) (.arr (JList.ofList deepMatches)) .nil
        match nodeGet n walkedDataWithKey with
        | .ok v => walkNodesLoop v false rest
        | .err e => .err e
        | .goPanic => .goPanic
      else walkNodesLoop (.arr (JList.ofList deepMatches)) false rest
    else
      match walkedData with
      | .obj m =>
        match nodeGet n m with
        | .ok v => walkNodesLoop v prevHasReccursiveDescent rest
        | .err e => .err e
        | .goPanic => .goPanic
      | _ => .goPanic

/-- `walkNodes` of `node.go`. -/
def walkNodes (data : JMap) (nodes : List NodeAccessor) : GoRes JValue :=
  walkNodesLoop (.obj data) false nodes

/-- Errors of the public `Get`/`Put`: a path syntax error from the parser or
a `dataValidationError` from the walk/accessors. -/
inductive JsonManuError where
  | pathSyntaxError (msg : String)
  | validationError (e : DataValidationError)
  deriving DecidableEq

/-- Outcome of a public `Get` call. -/
inductive CallResult where
  | ok (v : JValue)
  | err (e : JsonManuError)
  | goPanic
  deriving DecidableEq

/-- `Get` of `query.go`. -/
def Get (data : JMap) (jsonPath : String) : CallResult :=
  match parseJsonPath jsonPath with
  | .error msg => .err (.pathSyntaxError msg)
  | .ok nodes =>
    match walkNodes data nodes with
    | .ok v => .ok v
    | .err e => .err (.validationError e)
    | .goPanic => .goPanic

/-! ## `Put` (`query.go`)

Go's `Put` walks all but the last segment and then mutates the walked data
in place; the walked data aliases the original tree (or is a freshly built
slice/map whose elements alias it).  Decoded JSON trees are acyclic and
unshared, so every aliased Go object is identified by its access path from
the root.  The model reruns the same walk over such addresses (`WData`):
`loc p` is an alias to the subtree at path `p`, `wlist`/`wmap` are fresh Go
slices/maps produced by the walk whose components may alias.  The final
writes then go through the addresses; a write landing in a fresh object is
lost, exactly as in Go. -/

/-- One step of an access path into the tree. -/
inductive PathStep where
  | fld (k : String)
  | idx (i : ℕ)
  deriving DecidableEq

/-- The subtree of `v` at a path, `none` when the path does not exist. -/
def resolvePath : JValue → List PathStep → Option JValue
  | v, [] => some v
  | .obj fs, .fld k :: rest =>
    match jmapLookup fs k with
    | some v => resolvePath v rest
    | none => none
  | .arr l, .idx i :: rest =>
    match (JList.toList l).get? i with
    | some v => resolvePath v rest
    | none => none
  | _, _ => none

/-- Replace the subtree of `v` at a path (identity on dead paths, which the
walk never produces). -/
def updatePath : JValue → List PathStep → JValue → JValue
  | _, [], newV => newV
  | .obj fs, .fld k :: rest, newV =>
    .obj (jmapSet fs k (updatePath (jmapGet fs k) rest newV))
  | .arr l, .idx i :: rest, newV =>
    .arr (JList.ofList
      ((JList.toList l).set i (updatePath ((JList.toList l).getD i .vNull) rest newV)))
  | v, _ :: _, _ => v

mutual
/-- Walked data with aliasing information: an alias into the root tree, a
fresh slice, or a fresh map. -/
inductive WData where
  | loc (p : List PathStep)
  | wlist (els : WList)
  | wmap (fs : WFields)
  deriving DecidableEq

inductive WList where
  | nil : WList
  | cons (hd : WData) (tl : WList) : WList
  deriving DecidableEq

inductive WFields where
  | nil : WFields
  | cons (key : String) (val : WData) (tl : WFields) : WFields
  deriving DecidableEq
end

namespace WList

/-- Convert a `WList` to a Lean list. -/
def toList : WList → List WData
  | .nil => []
  | .cons w tl => w :: toList tl

/-- Convert a Lean list to a `WList`. -/
def ofList : List WData → WList
  | [] => .nil
  | w :: tl => .cons w (ofList tl)

end WList

mutual
/-- The Go value denoted by walked data (resolving aliases in the root). -/
def valueOfW (root : JValue) : WData → JValue
  | .loc p => (resolvePath root p).getD .vNull
  | .wlist els => .arr (valueOfWList root els)
  | .wmap fs => .obj (valueOfWFields root fs)

def valueOfWList (root : JValue) : WList → JList
  | .nil => .nil
  | .cons w tl => .cons (valueOfW root w) (valueOfWList root tl)

def valueOfWFields (root : JValue) : WFields → JMap
  | .nil => .nil
  | .cons k w tl => .cons k (valueOfW root w) (valueOfWFields root tl)
end

/-- Lookup in the fields of a fresh map. -/
def wFieldsLookup : WFields → String → Option WData
  | .nil, _ => none
  | .cons k w tl, key => if k = key then some w else wFieldsLookup tl key

/-- Address of the value stored under a key of walked map data (the callers
guarantee the key exists; the defaults are unreachable). -/
def wField (wd : WData) (k : String) : WData :=
  match wd with
  | .loc p => .loc (p ++ [.fld k])
  | .wmap fs => (wFieldsLookup fs k).getD (.wmap .nil)
  | .wlist _ => .wmap .nil

/-- Address of the `i`-th element of walked slice data (unreachable default
for fresh maps, whose value is never a slice). -/
def wElemAt (wd : WData) (i : ℕ) : WData :=
  match wd with
  | .loc p => .loc (p ++ [.idx i])
  | .wlist els => (WList.toList els).getD i (.wmap .nil)
  | .wmap _ => .wmap .nil

/-- Addresses of all elements of walked slice data. -/
def wElems (root : JValue) (wd : WData) : List WData :=
  match wd with
  | .loc p =>
    match resolvePath root p with
    | some (.arr l) => (List.range (JList.toList l).length).map (fun i => .loc (p ++ [.idx i]))
    | _ => []
  | .wlist els => WList.toList els
  | .wmap _ => []

/-- Address-level index projection (mirrors `indexedProject`). -/
def indexedProjectW (els : List WData) (len : ℕ) : List Int → List WData
  | [] => []
  | i :: rest =>
    if i < 0 ∨ (len : Int) ≤ i then indexedProjectW els len rest
    else els.getD i.toNat (.wmap .nil) :: indexedProjectW els len rest

/-- Address-level filter selection (mirrors `filteredGetLoop`), walking the
item values and their addresses in parallel. -/
def filteredSelectW (key op : String) (cmpVal : Option JValue) :
    List (JValue × WData) → GoRes (List WData)
  | [] => .ok []
  | (item, wel) :: rest =>
    match item with
    | .obj fs =>
      match jmapLookup fs key with
      | none => filteredSelectW key op cmpVal rest
      | some v =>
        match filteredSelectW key op cmpVal rest with
        | .ok r => if filteredKeep op cmpVal v then .ok (wel :: r) else .ok r
        | other => other
    | _ => .goPanic

/-- Address-level `get` of a node (mirrors `nodeGet`): same validation and
value logic, but the result is walked data.  A plain field yields the alias
of `data[name]`; an index/slice/filter projection yields a fresh slice of
element aliases; the unset-slice sentinel yields the parent itself. -/
def nodeGetW (root : JValue) (n : NodeAccessor) (wd : WData) : GoRes WData :=
  match valueOfW root wd with
  | .obj m =>
    match validateNodeData n m with
    | some e => .err e
    | none =>
      match n with
      | .node name => .ok (wField wd name)
      | .arrayIndexedNode name indices =>
        let wArr := wField wd name
        match jmapGet m name with
        | .arr l =>
          if indices = [] then .ok wArr
          else .ok (.wlist (WList.ofList
            (indexedProjectW (wElems root wArr) (JList.toList l).length indices)))
        | _ => .goPanic
      | .arraySlicedNode name start stop =>
        let wArr := wField wd name
        match jmapGet m name with
        | .arr l =>
          let len : Int := ((JList.toList l).length : Int)
          if start ≠ 0 ∧ stop ≠ 0 then
            if 0 ≤ start ∧ start ≤ stop ∧ stop ≤ len then
              .ok (.wlist (WList.ofList
                (((wElems root wArr).take stop.toNat).drop start.toNat)))
            else .goPanic
          else if start ≠ 0 ∧ stop = 0 then
            if 0 ≤ start ∧ start ≤ len then
              .ok (.wlist (WList.ofList ((wElems root wArr).drop start.toNat)))
            else .goPanic
          else if start = 0 ∧ stop ≠ 0 then
            if 0 ≤ stop ∧ stop ≤ len then
              .ok (.wlist (WList.ofList ((wElems root wArr).take stop.toNat)))
            else .goPanic
          else .ok wd
        | _ => .goPanic
      | .arrayFilteredNode name key op value =>
        let wArr := wField wd name
        match jmapGet m name with
        | .arr l =>
          match filteredSelectW key op value ((JList.toList l).zip (wElems root wArr)) with
          | .ok r => .ok (.wlist (WList.ofList r))
          | .err e => .err e
          | .goPanic => .goPanic
        | _ => .goPanic
  | _ => .goPanic

/-- Address-level fan-out (mirrors `fanOutGet`). -/
def fanOutGetW (root : JValue) (n : NodeAccessor) : List WData → GoRes (List WData)
  | [] => .ok []
  | wel :: rest =>
    match nodeGetW root n wel with
    | .ok w =>
      match fanOutGetW root n rest with
      | .ok r => .ok (w :: r)
      | other => other
    | .err e => .err e
    | .goPanic => .goPanic

mutual
/-- Address-level `mapGetDeep` (mirrors `mapGetDeep`); the first argument of
each recursive call is the value denoted by the walked data, kept in step
with the addresses. -/
def mapGetDeepVW (root : JValue) (key : String) : JValue → WData → List WData
  | .obj fs, wd =>
    if mapHasKey fs key then [wField wd key] else mapGetDeepEntriesVW root key fs wd
  | .arr l, wd => mapGetDeepItemsVW root key l 0 wd
  | _, _ => []

def mapGetDeepEntriesVW (root : JValue) (key : String) : JMap → WData → List WData
  | .nil, _ => []
  | .cons k v tl, wd =>
    (if isMapOrSlice v then
      match mapGetDeepVW root key v (wField wd k) with
      | [] => []
      | dv => [.wlist (WList.ofList dv)]
    else []) ++ mapGetDeepEntriesVW root key tl wd

def mapGetDeepItemsVW (root : JValue) (key : String) : JList → ℕ → WData → List WData
  | .nil, _, _ => []
  | .cons v tl, i, wd =>
    (match mapGetDeepVW root key v (wElemAt wd i) with
    | [] => []
    | dv => [.wlist (WList.ofList dv)]) ++ mapGetDeepItemsVW root key tl (i + 1) wd
end

mutual
/-- Address-level `flattenOne` (mirrors `flattenOne`). -/
def flattenOneW : JValue → WData → List WData
  | .arr l, wd => flattenItemsW l 0 wd
  | _, wd => [wd]

def flattenItemsW : JList → ℕ → WData → List WData
  | .nil, _, _ => []
  | .cons v tl, i, wd => flattenOneW v (wElemAt wd i) ++ flattenItemsW tl (i + 1) wd
end

/-- Address-level `mapGetDeepFlattened`. -/
def mapGetDeepFlattenedW (root : JValue) (wd : WData) (key : String) : List WData :=
  (mapGetDeepVW root key (valueOfW root wd) wd).flatMap
    (fun w => flattenOneW (valueOfW root w) w)

/-- The walk of `Put` (the same loop as `walkNodesLoop`, over addresses). -/
def walkWLoop (root : JValue) (wd : WData) (prevHasReccursiveDescent : Bool) :
    List NodeAccessor → GoRes WData
  | [] => .ok wd
  | n :: rest =>
    if getName n = "*" then walkWLoop root wd prevHasReccursiveDescent rest
    else if getName n = "" then walkWLoop root wd true rest
    else if isSlice (valueOfW root wd) then
      match fanOutGetW root n (wElems root wd) with
      | .ok els => walkWLoop root (.wlist (WList.ofList els)) prevHasReccursiveDescent rest
      | .err e => .err e
      | .goPanic => .goPanic
    else if prevHasReccursiveDescent then
      let deepMatches := mapGetDeepFlattenedW root wd (getName n)
      if isArrayNode n then
        let synth : WData := .wmap (.cons (getName n) (.wlist (WList.ofList deepMatches)) .nil)
        match nodeGetW root n synth with
        | .ok wd2 => walkWLoop root wd2 false rest
        | .err e => .err e
        | .goPanic => .goPanic
      else walkWLoop root (.wlist (WList.ofList deepMatches)) false rest
    else
      if isMap (valueOfW root wd) then
        match nodeGetW root n wd with
        | .ok wd2 => walkWLoop root wd2 prevHasReccursiveDescent rest
        | .err e => .err e
        | .goPanic => .goPanic
      else .goPanic

/-- Apply a new value at the address of walked data: through an alias it
lands in the root; a mutation of a fresh walk-built object is not visible
from the root (exactly Go's aliasing). -/
def applyAtW (root : JValue) (wd : WData) (newV : JValue) : JValue :=
  match wd with
  | .loc p => updatePath root p newV
  | _ => root

/-- Outcome of the final phase of `Put`: Go mutates the tree in place, so an
error still leaves behind the writes made before it; both outcomes carry
the resulting root. -/
inductive GoResP where
  | ok (root : JValue)
  | err (e : DataValidationError) (root : JValue)
  | goPanic
  deriving DecidableEq

/-- The final loop of `Put` over a walked slice: each item must be a map
(`item.(map[string]any)`), `lastNode.put` is applied to it and the first
error aborts (the writes already made stay).  Writes land through the
items' addresses. -/
def finalPutSlice (root : JValue) (last : NodeAccessor) (value : JValue) :
    List WData → GoResP
  | [] => .ok root
  | wel :: rest =>
    match valueOfW root wel with
    | .obj m =>
      match nodePut last m value with
      | .ok m2 => finalPutSlice (applyAtW root wel (.obj m2)) last value rest
      | .err e => .err e root
      | .goPanic => .goPanic
    | _ => .goPanic

/-- The final phase of `Put`: broadcast `lastNode.put` over a walked slice,
or apply it to the single walked map. -/
def finalPutPhase (root : JValue) (wd : WData) (last : NodeAccessor) (value : JValue) :
    GoResP :=
  if isSlice (valueOfW root wd) then finalPutSlice root last value (wElems root wd)
  else
    match valueOfW root wd with
    | .obj m =>
      match nodePut last m value with
      | .ok m2 => .ok (applyAtW root wd (.obj m2))
      | .err e => .err e root
      | .goPanic => .goPanic
    | _ => .goPanic

/-- Map over a `JList`. -/
def jlistMap (f : JValue → JValue) : JList → JList
  | .nil => .nil
  | .cons v tl => .cons (f v) (jlistMap f tl)

/-- `ensureDataStrunctureFromNodes` of `query.go`: the auto-vivification
pre-pass.  On a slice it recurses into every item with the remaining nodes;
on a map it creates an empty map under the first node's name when the key
is absent or nil, then recurses into the value (the model writes the
recursively updated value back, which is what Go's in-place mutation
produces). -/
def ensureDataStrunctureFromNodes : JValue → List NodeAccessor → JValue
  | data, [] => data
  | data, n :: rest =>
    if isSlice data then
      match data with
      | .arr l => .arr (jlistMap (fun item => ensureDataStrunctureFromNodes item rest) l)
      | _ => data
    else if isMap data then
      match data with
      | .obj fs =>
        let firstNodeName := getName n
        let fs1 :=
          match jmapLookup fs firstNodeName with
          | none => jmapSet fs firstNodeName (.obj .nil)
          | some .vNull => jmapSet fs firstNodeName (.obj .nil)
          | some _ => fs
        .obj (jmapSet fs1 firstNodeName
          (ensureDataStrunctureFromNodes (jmapGet fs1 firstNodeName) rest))
      | _ => data
    else data

/-- Outcome of a public `Put` call.  Go mutates `data` in place, so the
model carries the resulting tree on the error outcomes as well (after a
path-syntax error nothing has run and the tree is unchanged; after a
validation error the auto-vivification pre-pass and the final writes made
before the error stay). -/
inductive PutResult where
  | ok (data : JValue)
  | err (e : JsonManuError) (data : JValue)
  | goPanic
  deriving DecidableEq

/-- The data `Put` works on after its auto-vivification pre-pass (run only
when the path has no recursive descent). -/
def putPreparedData (data : JMap) (jsonPath : String) (nodes : List NodeAccessor) : JValue :=
  if ¬ jsonPathHasReccursiveDescent jsonPath then
    ensureDataStrunctureFromNodes (.obj data) nodes
  else .obj data

/-- Wrap the final phase's outcome into a `Put` outcome. -/
def putFinalize : GoResP → PutResult
  | .ok root2 => .ok root2
  | .err e root2 => .err (.validationError e) root2
  | .goPanic => .goPanic

/-- `Put` of `query.go`: parse, auto-vivify (no recursive descent only),
dispatch `$..leaf` to `mapPutDeep`, otherwise walk all but the last node
(`keyNotFound` falls back to the root as parent; the other validation
errors abort) and apply the final writes. -/
def Put (data : JMap) (jsonPath : String) (value : JValue) : PutResult :=
  match parseJsonPath jsonPath with
  | .error msg => .err (.pathSyntaxError msg) (.obj data)
  | .ok nodes =>
    let data1 : JValue := putPreparedData data jsonPath nodes
    match nodes.getLast? with
    | none => .goPanic
    | some lastNode =>
      if nodes.length ≥ 2 ∧ getName ((nodes.dropLast).getLast?.getD lastNode) = "" ∧
          ¬ isArrayNode lastNode then
        .ok (mapPutDeep (getName lastNode) value data1)
      else
        let allButLastNodes := nodes.dropLast
        match walkWLoop data1 (.loc []) false allButLastNodes with
        | .ok wd => putFinalize (finalPutPhase data1 wd lastNode value)
        | .err e =>
          match e.errorType with
          | .keyNotFound => putFinalize (finalPutPhase data1 (.loc []) lastNode value)
          | _ => .err (.validationError e) data1
        | .goPanic => .goPanic

/-! ## Transformers (`transformations.go`) and `Map` (`map.go`)

`regexp.FindString` (used by `StringMatchTransformer`) and
`fmt.Sprintf "%v"` (used by `JoinTransformer`) are external library
behaviours; the model takes them as uninterpreted function parameters
`regexFind` (regex, input ↦ first match) and `sprintV` (value ↦ rendering).
No claim depends on their behaviour. -/

/-- Fuel-driven split on a nonempty separator substring (Go
`strings.Split`); the fuel is the input length, which bounds the number of
steps. -/
def splitOnSubAux (sep : List Char) : ℕ → List Char → List (List Char)
  | _, [] => [[]]
  | 0, cs => [cs]
  | fuel + 1, c :: rest =>
    if List.isPrefixOf sep (c :: rest) then
      [] :: splitOnSubAux sep fuel ((c :: rest).drop sep.length)
    else
      match splitOnSubAux sep fuel rest with
      | [] => [[]]
      | h :: t => (c :: h) :: t

/-- Go `strings.Split(s, sep)`: with an empty separator, one token per
character. -/
def goStringsSplit (s sep : String) : List String :=
  if sep = "" then s.data.map (fun c => String.mk [c])
  else (splitOnSubAux sep.data s.data.length s.data).map String.mk

/-- Fuel-driven replace-all of a nonempty substring (Go `strings.Replace`
with `n = -1`). -/
def replaceSubAux (oldS newS : List Char) : ℕ → List Char → List Char
  | _, [] => []
  | 0, cs => cs
  | fuel + 1, c :: rest =>
    if List.isPrefixOf oldS (c :: rest) then
      newS ++ replaceSubAux oldS newS fuel ((c :: rest).drop oldS.length)
    else c :: replaceSubAux oldS newS fuel rest

/-- Go `strings.Replace(s, old, new, -1)`; an empty `old` inserts `new` at
every character boundary. -/
def goStringsReplaceAll (s oldS newS : String) : String :=
  if oldS = "" then
    String.mk (newS.data ++ s.data.flatMap (fun c => c :: newS.data))
  else String.mk (replaceSubAux oldS.data newS.data s.data.length s.data)

/-- Go `strings.Join`. -/
def goStringsJoin (parts : List String) (delim : String) : String :=
  match parts with
  | [] => ""
  | p :: rest => rest.foldl (fun acc q => acc ++ delim ++ q) p

/-- The six builtin transformers of `transformations.go`. -/
inductive Transformer where
  | splitTransformer (delim : String) (index : Int)
  | joinTransformer (delim : String)
  | replaceTransformer (oldVal newVal : String)
  | stringMatchTransformer (regex : String)
  | subStrTransformer (start stop : Int)
  | numberTransformer
  deriving DecidableEq

/-- Outcome of a `Transform` call (`(any, error)` in Go, or a runtime
panic). -/
inductive TransformResult where
  | ok (v : JValue)
  | err (msg : String)
  | goPanic
  deriving DecidableEq

/-- The `Transform` methods of `transformations.go`.  `SubStrTransformer`
slices the string (byte-wise in Go; the model's characters coincide with
bytes on ASCII data); a negative split index other than `-1` panics on
`split[t.Index]`. -/
def transform (regexFind : String → String → String) (sprintV : JValue → String)
    (t : Transformer) (value : JValue) : TransformResult :=
  match t with
  | .splitTransformer delim index =>
    if ¬ isString value then .err "Value is not a string."
    else
      let split := goStringsSplit (asGoString value) delim
      if (split.length : Int) ≤ index then .err "Index out of bounds."
      else if index = -1 then .ok (.arr (JList.ofList (split.map JValue.vStr)))
      else if index < 0 then .goPanic
      else .ok (.vStr (split.getD index.toNat ""))
  | .joinTransformer delim =>
    if ¬ isSlice value then .err "Value is not an array."
    else
      match value with
      | .arr l => .ok (.vStr (goStringsJoin ((JList.toList l).map sprintV) delim))
      | _ => .goPanic
  | .replaceTransformer oldVal newVal =>
    if ¬ isString value then .err "Value is not a string."
    else .ok (.vStr (goStringsReplaceAll (asGoString value) oldVal newVal))
  | .stringMatchTransformer regex =>
    if ¬ isString value then .err "Value is not a string."
    else .ok (.vStr (regexFind regex (asGoString value)))
  | .subStrTransformer start stop =>
    if ¬ isString value then .err "Value is not a string."
    else
      let s := asGoString value
      let len : Int := (s.data.length : Int)
      if start < 0 then .err "Start index out of bound."
      else if len ≤ stop then .err "End index out of bound."
      else
        let stop2 : Int := if stop = 0 then len else stop
        if start ≤ stop2 ∧ stop2 ≤ len then
          .ok (.vStr (String.mk ((s.data.take stop2.toNat).drop start.toNat)))
        else .goPanic
  | .numberTransformer =>
    if ¬ isString value then .err "Value is not a string."
    else
      match parseGoFloat (asGoString value) with
      | some q => .ok (.vNum q)
      | none => .err "Couldn't convert value to number."

/-- `Transformation` of `transformations.go`: a transformer plus the
`AsArray` flag. -/
structure Transformation where
  trsnfmr : Transformer
  asArray : Bool
  deriving DecidableEq

/-- `Mapper` of `map.go`. -/
structure Mapper where
  srcJsonPath : String
  dstJsonPath : String
  transformations : List Transformation
  deriving DecidableEq

/-- Per-mapper error of `handleMapper`, with the stage and (for a
transformation) the index that Go embeds in the message.  Go builds these
as formatted strings (`"Validation error: %v"`, `"Error while getting value
from data: %v"`, `"Transformation[%v] (%T): %v"`, `"Error while putting
value in destination: %v"`); the model keeps them structured. -/
inductive MapperError where
  | validationError (msg : String)
  | getError (e : JsonManuError)
  | transformError (i : ℕ) (msg : String)
  | putError (e : JsonManuError)
  deriving DecidableEq

/-- Outcome of `handleMapper`: Go mutates `dst` in place, so the error
outcome carries the destination state as well. -/
inductive MapperOutcome where
  | ok (dst : JMap)
  | err (e : MapperError) (dst : JMap)
  | goPanic
  deriving DecidableEq

/-- `handleSlideTransformation` of `map.go`: apply the transformer to every
element; an element failure reports the element index (Go:
`"Array[%v]: %v"`). -/
def handleSlideTransformation (regexFind : String → String → String)
    (sprintV : JValue → String) (t : Transformer) (i : ℕ) :
    List JValue → TransformResult
  | [] => .ok (.arr .nil)
  | item :: rest =>
    match transform regexFind sprintV t item with
    | .ok v =>
      match handleSlideTransformation regexFind sprintV t (i + 1) rest with
      | .ok (.arr r) => .ok (.arr (.cons v r))
      | other => other
    | .err msg => .err ("Array[" ++ toString i ++ "]: " ++ msg)
    | .goPanic => .goPanic

/-- Outcome of the transformation chain: the value, or the failing
transformation's index and message, or a panic. -/
inductive ChainResult where
  | ok2 (v : JValue)
  | err2 (i : ℕ) (msg : String)
  | goPanic2
  deriving DecidableEq

/-- The transformation chain of `handleMapper`: in order, broadcasting over
slices unless `AsArray` is set; the first failure aborts the chain with its
index. -/
def runTransformations (regexFind : String → String → String)
    (sprintV : JValue → String) (i : ℕ) (srcValue : JValue) :
    List Transformation → ChainResult
  | [] => .ok2 srcValue
  | tr :: rest =>
    let step :=
      if isSlice srcValue then
        if tr.asArray then transform regexFind sprintV tr.trsnfmr srcValue
        else
          match srcValue with
          | .arr l => handleSlideTransformation regexFind sprintV tr.trsnfmr 0 (JList.toList l)
          | _ => .goPanic
      else transform regexFind sprintV tr.trsnfmr srcValue
    match step with
    | .ok v => runTransformations regexFind sprintV (i + 1) v rest
    | .err msg => .err2 i msg
    | .goPanic => .goPanic2

/-- `validateMapper` of `map.go`. -/
def validateMapper (mapper : Mapper) : Option String :=
  if jsonPathHasReccursiveDescent mapper.dstJsonPath then
    some "Reccursive descent not allowed in destination path."
  else none

/-- `handleMapper` of `map.go`: validate, `Get` from the source, run the
transformation chain, `Put` into the destination. -/
def handleMapper (regexFind : String → String → String) (sprintV : JValue → String)
    (src dst : JMap) (mapper : Mapper) : MapperOutcome :=
  match validateMapper mapper with
  | some msg => .err (.validationError msg) dst
  | none =>
    match Get src mapper.srcJsonPath with
    | .err e => .err (.getError e) dst
    | .goPanic => .goPanic
    | .ok srcValue =>
      match runTransformations regexFind sprintV 0 srcValue mapper.transformations with
      | .err2 i msg => .err (.transformError i msg) dst
      | .goPanic2 => .goPanic
      | .ok2 v =>
        match Put dst mapper.dstJsonPath v with
        | .ok (.obj m2) => .ok m2
        | .ok _ => .goPanic
        | .err e (.obj m2) => .err (.putError e) m2
        | .err _ _ => .goPanic
        | .goPanic => .goPanic

/-- Result of `Map`: the per-mapper errors (each tagged with its mapper
index, as Go's `"Mapper[%v]: %s"` wrapping does) and the final destination. -/
inductive MapOutcome where
  | res (errors : List (ℕ × MapperError)) (dst : JMap)
  | goPanic
  deriving DecidableEq

/-- The loop of `Map` of `map.go`: every mapper runs; a failing mapper
appends one indexed error and the loop continues with the next mapper. -/
def MapLoop (regexFind : String → String → String) (sprintV : JValue → String)
    (src : JMap) (i : ℕ) (dst : JMap) (errors : List (ℕ × MapperError)) :
    List Mapper → MapOutcome
  | [] => .res errors dst
  | m :: rest =>
    match handleMapper regexFind sprintV src dst m with
    | .ok dst2 => MapLoop regexFind sprintV src (i + 1) dst2 errors rest
    | .err e dst2 => MapLoop regexFind sprintV src (i + 1) dst2 (errors ++ [(i, e)]) rest
    | .goPanic => .goPanic

/-- `Map` of `map.go`. -/
def Map (regexFind : String → String → String) (sprintV : JValue → String)
    (src dst : JMap) (mappers : List Mapper) : MapOutcome :=
  MapLoop regexFind sprintV src 0 dst [] mappers

/-! ## Specification-side definitions

The following definitions are written from the specification's wording (not
from the source); the claim theorems compare the embedded code against
them. -/

mutual
/-- Whether `key` is directly present in an object anywhere in the tree. -/
def hasKeyDeep (key : String) : JValue → Bool
  | .obj fs => mapHasKey fs key || hasKeyDeepFields key fs
  | .arr l => hasKeyDeepItems key l
  | _ => false

def hasKeyDeepFields (key : String) : JMap → Bool
  | .nil => false
  | .cons _ v tl => hasKeyDeep key v || hasKeyDeepFields key tl

def hasKeyDeepItems (key : String) : JList → Bool
  | .nil => false
  | .cons v tl => hasKeyDeep key v || hasKeyDeepItems key tl
end

/-- Whether a key is absent from a map's entries. -/
def keyNotIn (k : String) : JMap → Bool
  | .nil => true
  | .cons k2 _ tl => decide (¬ k2 = k) && keyNotIn k tl

mutual
/-- Well-formedness of decoded JSON: every object in the tree has pairwise
distinct keys (Go maps cannot hold duplicates). -/
def noDupKeys : JValue → Bool
  | .obj fs => noDupKeysFields fs
  | .arr l => noDupKeysItems l
  | _ => true

def noDupKeysFields : JMap → Bool
  | .nil => true
  | .cons k v tl => keyNotIn k tl && noDupKeys v && noDupKeysFields tl

def noDupKeysItems : JList → Bool
  | .nil => true
  | .cons v tl => noDupKeys v && noDupKeysItems tl
end

mutual
/-- `deepReplace` as the specification describes it: set `key` to the new
value wherever it is directly present, at any depth, recursing into all
children (siblings and descendants of a hit included). -/
def deepReplaceSpec (key : String) (value : JValue) : JValue → JValue
  | .obj fs => .obj (deepReplaceSpecFields key value fs)
  | .arr l => .arr (deepReplaceSpecItems key value l)
  | v => v

def deepReplaceSpecFields (key : String) (value : JValue) : JMap → JMap
  | .nil => .nil
  | .cons k v tl =>
    .cons k (if k = key then value else deepReplaceSpec key value v)
      (deepReplaceSpecFields key value tl)

def deepReplaceSpecItems (key : String) (value : JValue) : JList → JList
  | .nil => .nil
  | .cons v tl => .cons (deepReplaceSpec key value v) (deepReplaceSpecItems key value tl)
end

mutual
/-- Condition under which the source's hit-stops-descent deep replace sets
every occurrence: below any object that directly contains `key`, no further
occurrence of `key` exists in the values of the other entries. -/
def noNestedOccurrence (key : String) : JValue → Bool
  | .obj fs =>
    if mapHasKey fs key then noNestedHitFields key fs else noNestedOccurrenceFields key fs
  | .arr l => noNestedOccurrenceItems key l
  | _ => true

/-- At a hit: every entry either is the hit key itself or contains no deep
occurrence of the key. -/
def noNestedHitFields (key : String) : JMap → Bool
  | .nil => true
  | .cons k v tl => (decide (k = key) || !hasKeyDeep key v) && noNestedHitFields key tl

def noNestedOccurrenceFields (key : String) : JMap → Bool
  | .nil => true
  | .cons _ v tl => noNestedOccurrence key v && noNestedOccurrenceFields key tl

def noNestedOccurrenceItems (key : String) : JList → Bool
  | .nil => true
  | .cons v tl => noNestedOccurrence key v && noNestedOccurrenceItems key tl
end

/-- The path string `$.k1.k2...kn` built from field names. -/
def mkFieldPath (ks : List String) : String :=
  String.mk ('$' :: ks.flatMap (fun k => '.' :: k.data))

/-- Whether a chain of field keys resolves through nested objects: every
intermediate key holds an object, and the final key is present (with any
value). -/
def objChainOk : JMap → List String → Bool
  | _, [] => true
  | m, [k] => mapHasKey m k
  | m, k :: k2 :: rest =>
    match jmapLookup m k with
    | some (.obj m2) => objChainOk m2 (k2 :: rest)
    | _ => false

/-- The value a chain of field lookups reaches (the final key's value). -/
def objChainGet : JMap → List String → JValue
  | m, [] => .obj m
  | m, [k] => jmapGet m k
  | m, k :: k2 :: rest =>
    match jmapLookup m k with
    | some (.obj m2) => objChainGet m2 (k2 :: rest)
    | _ => .vNull

/-- The effect of the auto-vivification pre-pass along an intact field
chain: only the final key's slot can change (a `null` there becomes an
empty object). -/
def chainEnsure : JMap → List String → JMap
  | m, [] => m
  | m, [k] =>
    match jmapLookup m k with
    | some .vNull => jmapSet m k (.obj .nil)
    | _ => m
  | m, k :: k2 :: rest =>
    match jmapLookup m k with
    | some (.obj m2) => jmapSet m k (.obj (chainEnsure m2 (k2 :: rest)))
    | _ => m

/-- The map containing the final key of a field chain. -/
def chainFinalMap : JMap → List String → JMap
  | m, [] => m
  | m, [_] => m
  | m, k :: k2 :: rest =>
    match jmapLookup m k with
    | some (.obj m2) => chainFinalMap m2 (k2 :: rest)
    | _ => m

/-- Characters the indices body pattern `( *\d+,? *)+` can accept. -/
def indicesAllowedChar (c : Char) : Bool := c.isDigit || c = ' ' || c = ','

/-! ## Helper lemmas -/

theorem jlistToList_ofList (l : List JValue) : JList.toList (JList.ofList l) = l := by
  induction l with
  | nil => rfl
  | cons v tl ih => simp [JList.ofList, JList.toList, ih]

theorem jlistOfList_toList : ∀ (l : JList), JList.ofList (JList.toList l) = l
  | .nil => rfl
  | .cons v tl => by simp [JList.ofList, JList.toList, jlistOfList_toList tl]

theorem mapHasKey_eq_isSome : ∀ (m : JMap) (k : String),
    mapHasKey m k = (jmapLookup m k).isSome
  | .nil, k => rfl
  | .cons k2 v tl, k => by
    by_cases h : k2 = k <;> simp [mapHasKey, jmapLookup, h, mapHasKey_eq_isSome tl k]

theorem jmapGet_eq_of_lookup {m : JMap} {k : String} {v : JValue}
    (h : jmapLookup m k = some v) : jmapGet m k = v := by
  rw [jmapGet, h]; rfl

theorem mapHasKey_of_lookup {m : JMap} {k : String} {v : JValue}
    (h : jmapLookup m k = some v) : mapHasKey m k = true := by
  rw [mapHasKey_eq_isSome, h]; rfl

theorem jmapSet_lookup_self : ∀ (m : JMap) (k : String) (v : JValue),
    jmapLookup m k = some v → jmapSet m k v = m
  | .nil, _, _, h => by simp [jmapLookup] at h
  | .cons k2 v2 tl, k, v, h => by
    by_cases hk : k2 = k
    · simp [jmapLookup, hk] at h
      simp [jmapSet, hk, h]
    · simp [jmapLookup, hk] at h
      simp [jmapSet, hk, jmapSet_lookup_self tl k v h]

/-! ## Claim C4: filter comparison, `>` on strings -/

/-- C4 (code bug): the specification says a string comparison under `>`
holds exactly when the item's string is lexicographically greater than the
literal.  The source's `case ">"` string branch compares with `<` instead:
on the non-numeric strings `"a"` and `"b"` (with `"a"` lexicographically
smaller, third conjunct), the embedded `assertCondition` nevertheless
returns `true` for `"a" > "b"` and `false` for `"b" > "a"` — the exact
inversion of the claimed behaviour. -/
theorem assertCondition_string_gt_inverted :
    assertCondition (.vStr "a") (.vStr "b") ">" = true ∧
    assertCondition (.vStr "b") (.vStr "a") ">" = false ∧
    goStringLt "a" "b" = true := by decide

/-! ## Claim C3: unset slice sentinel -/

/-- C3 (amended): with both slice bounds unset (`start = 0`, `end = 0`),
`arraySlicedNode.get` returns the whole PARENT OBJECT (the source map) —
not the array stored under the name, and not an empty result. -/
theorem arraySlicedNode_get_unset (data : JMap) (name : String) (l : JList)
    (h : jmapLookup data name = some (.arr l)) :
    nodeGet (.arraySlicedNode name 0 0) data = .ok (.obj data) := by
  have hk := mapHasKey_of_lookup h
  have hg := jmapGet_eq_of_lookup h
  simp [nodeGet, validateNodeData, getName, isArrayNode, hk, hg, isSlice]

/-- C3 counterexample: on `{"books": [1,2,3]}` the unset-bounds slice `get`
returns the parent map, which is not the stored array (the claim as stated
says the original array is returned). -/
theorem arraySlicedNode_get_unset_counterexample :
    nodeGet (.arraySlicedNode "books" 0 0)
        (.cons "books" (.arr (.cons (.vNum 1) (.cons (.vNum 2) (.cons (.vNum 3) .nil)))) .nil) =
      .ok (.obj (.cons "books"
        (.arr (.cons (.vNum 1) (.cons (.vNum 2) (.cons (.vNum 3) .nil)))) .nil)) ∧
    (GoRes.ok (JValue.obj (.cons "books"
        (.arr (.cons (.vNum 1) (.cons (.vNum 2) (.cons (.vNum 3) .nil)))) .nil)) ≠
      GoRes.ok (JValue.arr (.cons (.vNum 1) (.cons (.vNum 2) (.cons (.vNum 3) .nil))))) := by
  decide

/-- Witness for `arraySlicedNode_get_unset` at `{"books": [1,2,3]}`. -/
theorem arraySlicedNode_get_unset_witness :
    nodeGet (.arraySlicedNode "books" 0 0)
        (.cons "books" (.arr (.cons (.vNum 1) (.cons (.vNum 2) (.cons (.vNum 3) .nil)))) .nil) =
      .ok (.obj (.cons "books"
        (.arr (.cons (.vNum 1) (.cons (.vNum 2) (.cons (.vNum 3) .nil)))) .nil)) :=
  arraySlicedNode_get_unset _ "books" _ rfl

/-! ## Claim C7: indexed-array projection -/

theorem indexedProject_eq_filterMap (l : List JValue) : ∀ (idcs : List Int),
    indexedProject l idcs =
      idcs.filterMap (fun i => if 0 ≤ i then l.get? i.toNat else none)
  | [] => rfl
  | i :: rest => by
    rw [indexedProject, List.filterMap_cons, indexedProject_eq_filterMap l rest]
    by_cases h0 : i < 0
    · rw [if_pos (Or.inl h0), if_neg (by omega)]
    · by_cases h1 : (l.length : Int) ≤ i
      · rw [if_pos (Or.inr h1), if_pos (by omega)]
        have : l.get? i.toNat = none := by
          rw [List.get?_eq_none]
          omega
        rw [this]
      · rw [if_neg (by omega), if_pos (by omega)]
        have hlt : i.toNat < l.length := by omega
        rw [List.getD, List.get?_eq_getElem? , List.getElem?_eq_getElem hlt]
        rfl

/-- C7: `arrayIndexedNode.get` on a parent whose named slot holds an array:
with empty indices the array is returned unchanged; otherwise a new array
projecting exactly the listed indices in the given order, silently skipping
every index `< 0` or `≥ length`. -/
theorem arrayIndexedNode_get_projects (data : JMap) (name : String) (l : JList)
    (h : jmapLookup data name = some (.arr l)) (indices : List Int) :
    nodeGet (.arrayIndexedNode name indices) data =
      if indices = [] then .ok (.arr l)
      else .ok (.arr (JList.ofList (indices.filterMap
        (fun i => if 0 ≤ i then (JList.toList l).get? i.toNat else none)))) := by
  have hk := mapHasKey_of_lookup h
  have hg := jmapGet_eq_of_lookup h
  by_cases he : indices = []
  · simp [nodeGet, validateNodeData, getName, isArrayNode, hk, hg, isSlice, he]
  · simp [nodeGet, validateNodeData, getName, isArrayNode, hk, hg, isSlice, he,
      indexedProject_eq_filterMap]

/-- Witness for `arrayIndexedNode_get_projects`: indices `[0, -1, 99]` over
the 3-element array `[1,2,3]` return only the element at index 0 (and empty
indices return the array unchanged). -/
theorem arrayIndexedNode_get_projects_witness :
    nodeGet (.arrayIndexedNode "books" [0, -1, 99])
        (.cons "books" (.arr (.cons (.vNum 1) (.cons (.vNum 2) (.cons (.vNum 3) .nil)))) .nil) =
      .ok (.arr (.cons (.vNum 1) .nil)) ∧
    nodeGet (.arrayIndexedNode "books" [])
        (.cons "books" (.arr (.cons (.vNum 1) (.cons (.vNum 2) (.cons (.vNum 3) .nil)))) .nil) =
      .ok (.arr (.cons (.vNum 1) (.cons (.vNum 2) (.cons (.vNum 3) .nil)))) := by
  constructor
  · have := arrayIndexedNode_get_projects
      (.cons "books" (.arr (.cons (.vNum 1) (.cons (.vNum 2) (.cons (.vNum 3) .nil)))) .nil)
      "books" (.cons (.vNum 1) (.cons (.vNum 2) (.cons (.vNum 3) .nil))) rfl [0, -1, 99]
    simpa using this
  · have := arrayIndexedNode_get_projects
      (.cons "books" (.arr (.cons (.vNum 1) (.cons (.vNum 2) (.cons (.vNum 3) .nil)))) .nil)
      "books" (.cons (.vNum 1) (.cons (.vNum 2) (.cons (.vNum 3) .nil))) rfl []
    simpa using this

/-! ## Claim C8: path syntax errors -/

/-- C8: whenever the path string does not start with `$.` or ends with `.`,
both `Get` and `Put` fail with a path-syntax error, regardless of the data
(and `Put` has not touched the data). -/
theorem get_put_path_syntax (data : JMap) (v : JValue) (s : String)
    (h : startsWithDollarDot s = false ∨ s.data.getLast? = some '.') :
    (∃ msg, Get data s = .err (.pathSyntaxError msg)) ∧
    (∃ msg, Put data s v = .err (.pathSyntaxError msg) (.obj data)) := by
  have hp : ∃ msg, parseJsonPath s = .error msg := by
    cases h1 : startsWithDollarDot s with
    | false => exact ⟨_, by rw [parseJsonPath, if_pos (by simp [h1])]⟩
    | true =>
      rcases h with h | h
      · rw [h1] at h; cases h
      · exact ⟨_, by rw [parseJsonPath, if_neg (by simp [h1]), if_pos h]⟩
  obtain ⟨msg, hmsg⟩ := hp
  exact ⟨⟨msg, by rw [Get, hmsg]⟩, ⟨msg, by rw [Put, hmsg]⟩⟩

/-- Witness for `get_put_path_syntax`: `get(anything, "$.books.")` (trailing
dot) fails with a path-syntax error, and so does `Put`. -/
theorem get_put_path_syntax_witness :
    (∃ msg, Get JMap.nil "$.books." = .err (.pathSyntaxError msg)) ∧
    (∃ msg, Put JMap.nil "$.books." (.vNum 1) = .err (.pathSyntaxError msg) (.obj JMap.nil)) :=
  get_put_path_syntax JMap.nil (.vNum 1) "$.books." (Or.inr (by decide))

/-! ## Claim C9: indexed-array tokens and negative indices -/

theorem indicesStep_none : ∀ (cs : List Char), cs.foldl indicesStep none = none
  | [] => rfl
  | _ :: tl => indicesStep_none tl

theorem indicesStep_not_allowed {c : Char} (h : indicesAllowedChar c = false)
    (st : Option ℕ) : indicesStep st c = none := by
  simp only [indicesAllowedChar, Bool.or_eq_false_iff, decide_eq_false_iff_not] at h
  obtain ⟨⟨hd, hsp⟩, hcm⟩ := h
  cases st with
  | none => rfl
  | some n =>
    match n with
    | 0 => simp [indicesStep, hd, hsp]
    | 1 => simp [indicesStep, hd, hsp, hcm]
    | 2 => simp [indicesStep, hd, hsp]
    | n + 3 => rfl

theorem indicesFold_chars_allowed : ∀ (cs : List Char) (st : Option ℕ),
    cs.foldl indicesStep st ≠ none → ∀ c ∈ cs, indicesAllowedChar c = true
  | [], _, _ => by simp
  | c :: tl, st, h => by
    intro c2 hc2
    rcases List.mem_cons.mp hc2 with rfl | hmem
    · by_contra hna
      rw [List.foldl_cons, indicesStep_not_allowed (Bool.not_eq_true _ ▸ hna) st,
        indicesStep_none] at h
      exact h rfl
    · exact indicesFold_chars_allowed tl (indicesStep st c)
        (by rwa [List.foldl_cons] at h) c2 hmem

theorem indicesBodyAccept_chars {body : List Char}
    (h : indicesBodyAccept body = true) : ∀ c ∈ body, indicesAllowedChar c = true := by
  refine indicesFold_chars_allowed body (some 0) ?_
  intro hnone
  rw [indicesBodyAccept, hnone] at h
  cases h

theorem splitOnChar_ne_nil (sep : Char) : ∀ (l : List Char), splitOnChar sep l ≠ []
  | [] => by simp [splitOnChar]
  | x :: tl => by
    rw [splitOnChar]
    rcases heq : splitOnChar sep tl with _ | ⟨h2, t2⟩
    · simp
    · by_cases hx : x = sep <;> simp [hx]

theorem splitOnChar_chars (sep : Char) : ∀ (l piece : List Char),
    piece ∈ splitOnChar sep l → ∀ c ∈ piece, c ∈ l
  | [], piece, hp => by
    simp [splitOnChar] at hp
    subst hp
    simp
  | x :: tl, piece, hp => by
    intro c hc
    rcases heq : splitOnChar sep tl with _ | ⟨h2, t2⟩
    · exact absurd heq (splitOnChar_ne_nil sep tl)
    · rw [splitOnChar, heq] at hp
      dsimp only at hp
      by_cases hx : x = sep
      · rw [if_pos hx] at hp
        rcases List.mem_cons.mp hp with rfl | hp2
        · cases hc
        · exact List.mem_cons_of_mem x
            (splitOnChar_chars sep tl piece (heq ▸ hp2) c hc)
      · rw [if_neg hx] at hp
        rcases List.mem_cons.mp hp with rfl | hp2
        · rcases List.mem_cons.mp hc with rfl | hc2
          · exact List.mem_cons_self _ _
          · exact List.mem_cons_of_mem x
              (splitOnChar_chars sep tl h2 (heq ▸ List.mem_cons_self h2 t2) c hc2)
        · exact List.mem_cons_of_mem x
            (splitOnChar_chars sep tl piece (heq ▸ List.mem_cons_of_mem h2 hp2) c hc)

theorem goTrimSpace_chars (p : List Char) : ∀ c ∈ goTrimSpace p, c ∈ p := by
  intro c hc
  rw [goTrimSpace, List.mem_reverse] at hc
  have h1 := (List.dropWhile_sublist (l := (p.dropWhile Char.isWhitespace).reverse)
    (p := Char.isWhitespace)).subset hc
  rw [List.mem_reverse] at h1
  exact (List.dropWhile_sublist (l := p) (p := Char.isWhitespace)).subset h1

theorem goAtoi_nonneg (s : String) (h : '-' ∉ s.data) : 0 ≤ goAtoi s := by
  unfold goAtoi
  split
  · next r heq => exact absurd (heq ▸ List.mem_cons_self '-' r) h
  · next r heq => split <;> simp
  · next => split <;> simp

theorem parseIndices_nonneg {body : List Char}
    (hacc : indicesBodyAccept body = true) : ∀ i ∈ parseIndices body, 0 ≤ i := by
  intro i hi
  rw [parseIndices, List.mem_map] at hi
  obtain ⟨piece, hpmem, rfl⟩ := hi
  refine goAtoi_nonneg _ ?_
  intro hneg
  have h1 : '-' ∈ piece := goTrimSpace_chars piece '-' hneg
  have h2 : '-' ∈ body := splitOnChar_chars ',' body piece hpmem '-' h1
  have h3 := indicesBodyAccept_chars hacc '-' h2
  exact absurd h3 (by decide)

/-- C9 (amended): the parser accepts `name[i]` / `name[i,j,...]` tokens and
yields an IndexedArray accessor with the parsed integer indices (first
conjunct, a representative token), but the digit-only pattern
`( *\d+,? *)+` admits no sign: every accepted indexed-array token yields
only non-negative indices (second conjunct). -/
theorem indexed_token_indices_nonneg :
    nodeFromJsonPathSubNode "books[1,2]" = some (.arrayIndexedNode "books" [1, 2]) ∧
    ∀ (tok name : String) (indices : List Int),
      nodeFromJsonPathSubNode tok = some (.arrayIndexedNode name indices) →
      ∀ i ∈ indices, 0 ≤ i := by
  refine ⟨by decide, ?_⟩
  intro tok name indices hparse i hi
  simp only [nodeFromJsonPathSubNode] at hparse
  split at hparse
  · next nm body heq =>
    split at hparse
    · simp at hparse
      obtain ⟨-, h2⟩ := hparse
      subst h2
      cases hi
    · split at hparse
      · next hacc =>
        simp at hparse
        obtain ⟨-, h2⟩ := hparse
        subst h2
        exact parseIndices_nonneg hacc i hi
      · split at hparse
        · split at hparse
          · simp at hparse
          · split at hparse <;> simp at hparse
        · split at hparse <;> simp at hparse
  · split at hparse
    · simp at hparse
    · split at hparse <;> simp at hparse

/-- Witness for `indexed_token_indices_nonneg`: the token `books[7]` parses
to non-negative indices. -/
theorem indexed_token_indices_nonneg_witness :
    nodeFromJsonPathSubNode "books[1,2]" = some (.arrayIndexedNode "books" [1, 2]) ∧
    ∀ i ∈ [(7 : Int)], 0 ≤ i :=
  ⟨indexed_token_indices_nonneg.1,
    indexed_token_indices_nonneg.2 "books[7]" "books" [7] (by decide)⟩

/-- C9 counterexample: the canonical negative-index token `books[-1]` does
not parse at all (so no IndexedArray segment with a negative index is
produced; the claim asserts some negative-index token parses successfully
to its negative index). -/
theorem indexed_token_negative_rejected :
    nodeFromJsonPathSubNode "books[-1]" = none ∧
    parseJsonPath "$.books[-1]" =
      .error "Couldn't parse JSONPath substring 0: books[-1]" := by decide

/-! ## Claim C10: negative slice bounds parse but panic -/

/-- C10: the sliced-array token pattern accepts a negative bound, so
`$.books[-1:]` parses into a SlicedArray accessor with `start = -1`; but
the accessor then reslices the Go array with that bound unguarded, so on
every parent whose `books` slot holds an array both `Get` and `Put` panic
instead of returning an error — the operation is not total at the public
interface. -/
theorem sliced_negative_bound_panics (data : JMap) (l : JList)
    (h : jmapLookup data "books" = some (.arr l)) (v : JValue) :
    parseJsonPath "$.books[-1:]" = .ok [.arraySlicedNode "books" (-1) 0] ∧
    Get data "$.books[-1:]" = .goPanic ∧
    Put data "$.books[-1:]" v = .goPanic := by
  have hk := mapHasKey_of_lookup h
  have hg := jmapGet_eq_of_lookup h
  have hp : parseJsonPath "$.books[-1:]" = .ok [.arraySlicedNode "books" (-1) 0] := by decide
  refine ⟨hp, ?_, ?_⟩
  · rw [Get, hp]
    simp [walkNodes, walkNodesLoop, getName, isSlice, nodeGet, validateNodeData,
      isArrayNode, hk, hg, goSlice]
  · have hens : ensureDataStrunctureFromNodes (.obj data) [.arraySlicedNode "books" (-1) 0] =
        .obj data := by
      rw [ensureDataStrunctureFromNodes]
      simp [isSlice, isMap, h, hg, ensureDataStrunctureFromNodes, getName,
        jmapSet_lookup_self data "books" (.arr l) h]
    rw [Put, hp]
    simp only [putPreparedData]
    rw [if_pos (by decide), hens]
    simp [walkWLoop, finalPutPhase, valueOfW, resolvePath, isSlice, nodePut,
      validateNodeData, getName, isArrayNode, hk, hg, putFinalize]

/-! ## Claim C2: deep replace -/

mutual
theorem deepReplaceSpec_id (key : String) (value : JValue) :
    ∀ (v : JValue), hasKeyDeep key v = false → deepReplaceSpec key value v = v
  | .obj fs, h => by
    simp only [hasKeyDeep, Bool.or_eq_false_iff] at h
    rw [deepReplaceSpec, deepReplaceSpecFields_id key value fs h.1 h.2]
  | .arr l, h => by
    simp only [hasKeyDeep] at h
    rw [deepReplaceSpec, deepReplaceSpecItems_id key value l h]
  | .vNull, _ => rfl
  | .vBool _, _ => rfl
  | .vNum _, _ => rfl
  | .vStr _, _ => rfl

theorem deepReplaceSpecFields_id (key : String) (value : JValue) :
    ∀ (fs : JMap), mapHasKey fs key = false → hasKeyDeepFields key fs = false →
      deepReplaceSpecFields key value fs = fs
  | .nil, _, _ => rfl
  | .cons k v tl, hk, hd => by
    simp only [mapHasKey, Bool.or_eq_false_iff, decide_eq_false_iff_not] at hk
    simp only [hasKeyDeepFields, Bool.or_eq_false_iff] at hd
    rw [deepReplaceSpecFields, if_neg hk.1, deepReplaceSpec_id key value v hd.1,
      deepReplaceSpecFields_id key value tl hk.2 hd.2]

theorem deepReplaceSpecItems_id (key : String) (value : JValue) :
    ∀ (l : JList), hasKeyDeepItems key l = false → deepReplaceSpecItems key value l = l
  | .nil, _ => rfl
  | .cons v tl, h => by
    simp only [hasKeyDeepItems, Bool.or_eq_false_iff] at h
    rw [deepReplaceSpecItems, deepReplaceSpec_id key value v h.1,
      deepReplaceSpecItems_id key value tl h.2]
end

theorem deepReplaceSpecFields_id_keyNotIn (key : String) (value : JValue) :
    ∀ (fs : JMap), keyNotIn key fs = true → noNestedHitFields key fs = true →
      deepReplaceSpecFields key value fs = fs
  | .nil, _, _ => rfl
  | .cons k v tl, hki, hn => by
    simp only [keyNotIn, Bool.and_eq_true, decide_eq_true_eq] at hki
    simp only [noNestedHitFields, Bool.and_eq_true, Bool.or_eq_true,
      decide_eq_true_eq, Bool.not_eq_true'] at hn
    have hkd : hasKeyDeep key v = false := by
      rcases hn.1 with h | h
      · exact absurd h hki.1
      · exact h
    rw [deepReplaceSpecFields, if_neg hki.1, deepReplaceSpec_id key value v hkd,
      deepReplaceSpecFields_id_keyNotIn key value tl hki.2 hn.2]

theorem jmapSet_eq_specFields (key : String) (value : JValue) :
    ∀ (fs : JMap), mapHasKey fs key = true → noNestedHitFields key fs = true →
      noDupKeysFields fs = true → jmapSet fs key value = deepReplaceSpecFields key value fs
  | .nil, h, _, _ => by cases h
  | .cons k v tl, h, hn, hd => by
    simp only [noNestedHitFields, Bool.and_eq_true, Bool.or_eq_true,
      decide_eq_true_eq, Bool.not_eq_true'] at hn
    simp only [noDupKeysFields, Bool.and_eq_true] at hd
    by_cases hk : k = key
    · rw [jmapSet, if_pos hk, deepReplaceSpecFields, if_pos hk,
        deepReplaceSpecFields_id_keyNotIn key value tl (hk ▸ hd.1.1) hn.2]
    · simp only [mapHasKey, Bool.or_eq_true, decide_eq_true_eq] at h
      rcases h with h | h
      · exact absurd h hk
      · have hkd : hasKeyDeep key v = false := by
          rcases hn.1 with h2 | h2
          · exact absurd h2 hk
          · exact h2
        rw [jmapSet, if_neg hk, deepReplaceSpecFields, if_neg hk,
          deepReplaceSpec_id key value v hkd,
          jmapSet_eq_specFields key value tl h hn.2 hd.2]

mutual
theorem mapPutDeep_eq_spec (key : String) (value : JValue) :
    ∀ (v : JValue), noDupKeys v = true → noNestedOccurrence key v = true →
      mapPutDeep key value v = deepReplaceSpec key value v
  | .obj fs, hd, hn => by
    rw [noDupKeys] at hd
    rw [noNestedOccurrence] at hn
    by_cases hk : mapHasKey fs key = true
    · rw [if_pos hk] at hn
      rw [mapPutDeep, if_pos hk, deepReplaceSpec, jmapSet_eq_specFields key value fs hk hn hd]
    · rw [if_neg hk] at hn
      rw [mapPutDeep, if_neg hk, deepReplaceSpec,
        mapPutDeepEntries_eq_spec key value fs (Bool.not_eq_true _ ▸ hk) hd hn]
  | .arr l, hd, hn => by
    rw [noDupKeys] at hd
    rw [noNestedOccurrence] at hn
    rw [mapPutDeep, deepReplaceSpec, mapPutDeepItems_eq_spec key value l hd hn]
  | .vNull, _, _ => rfl
  | .vBool _, _, _ => rfl
  | .vNum _, _, _ => rfl
  | .vStr _, _, _ => rfl

theorem mapPutDeepEntries_eq_spec (key : String) (value : JValue) :
    ∀ (fs : JMap), mapHasKey fs key = false → noDupKeysFields fs = true →
      noNestedOccurrenceFields key fs = true →
      mapPutDeepEntries key value fs = deepReplaceSpecFields key value fs
  | .nil, _, _, _ => rfl
  | .cons k v tl, hk, hd, hn => by
    simp only [mapHasKey, Bool.or_eq_false_iff, decide_eq_false_iff_not] at hk
    simp only [noDupKeysFields, Bool.and_eq_true] at hd
    simp only [noNestedOccurrenceFields, Bool.and_eq_true] at hn
    rw [mapPutDeepEntries, deepReplaceSpecFields,
      mapPutDeepEntries_eq_spec key value tl hk.2 hd.2 hn.2, if_neg hk.1]
    by_cases hms : isMapOrSlice v = true
    · rw [if_pos hms, mapPutDeep_eq_spec key value v hd.1.2 hn.1]
    · rw [if_neg hms]
      cases v with
      | obj fs2 => cases hms (by rfl)
      | arr l2 => cases hms (by rfl)
      | vNull => rfl
      | vBool b => rfl
      | vNum q => rfl
      | vStr s => rfl

theorem mapPutDeepItems_eq_spec (key : String) (value : JValue) :
    ∀ (l : JList), noDupKeysItems l = true → noNestedOccurrenceItems key l = true →
      mapPutDeepItems key value l = deepReplaceSpecItems key value l
  | .nil, _, _ => rfl
  | .cons v tl, hd, hn => by
    simp only [noDupKeysItems, Bool.and_eq_true] at hd
    simp only [noNestedOccurrenceItems, Bool.and_eq_true] at hn
    rw [mapPutDeepItems, deepReplaceSpecItems, mapPutDeep_eq_spec key value v hd.1 hn.1,
      mapPutDeepItems_eq_spec key value tl hd.2 hn.2]
end

/-- C2 (amended): `put(data, "$..key", v)` dispatches to the deep-replace
`mapPutDeep`, which sets `key` at a location only if no map on the way
there already contains `key` directly (a hit stops the descent of that
branch).  On well-formed trees where no occurrence of the key lies below
another map that directly contains it — in particular the 6-location tree
of the specification, whose occurrences sit in disjoint array items — this
coincides with the specification's replace-everywhere `deepReplaceSpec`,
so every occurrence is set. -/
theorem put_recursive_descent_deep_replace (m : JMap) (v : JValue)
    (hd : noDupKeys (.obj m) = true) (hn : noNestedOccurrence "price" (.obj m) = true) :
    Put m "$..price" v = .ok (deepReplaceSpec "price" v (.obj m)) := by
  have hp : parseJsonPath "$..price" = .ok [.node "", .node "price"] := by decide
  rw [Put, hp]
  simp only [putPreparedData]
  rw [if_neg (by decide)]
  simp only [List.getLast?, List.length, List.dropLast, getName, isArrayNode]
  rw [if_pos (by simp [getName, isArrayNode])]
  simp [List.getLast, getName, mapPutDeep_eq_spec "price" v (.obj m) hd hn]

/-- C2 counterexample: on `{"price": 1, "sub": {"price": 2}}` the key
`price` is directly present at two locations, but
`put(data, "$..price", 5)` leaves the nested `sub.price` at `2` (a hit at
the top level stops the descent), so the claimed set-at-every-location
behaviour (`deepReplaceSpec`) does not hold. -/
theorem put_recursive_descent_counterexample :
    Put (.cons "price" (.vNum 1) (.cons "sub" (.obj (.cons "price" (.vNum 2) .nil)) .nil))
        "$..price" (.vNum 5) =
      .ok (.obj (.cons "price" (.vNum 5)
        (.cons "sub" (.obj (.cons "price" (.vNum 2) .nil)) .nil))) ∧
    JValue.obj (.cons "price" (.vNum 5) (.cons "sub" (.obj (.cons "price" (.vNum 2) .nil)) .nil)) ≠
      deepReplaceSpec "price" (.vNum 5)
        (.obj (.cons "price" (.vNum 1) (.cons "sub" (.obj (.cons "price" (.vNum 2) .nil)) .nil))) := by
  decide

/-- Witness for `put_recursive_descent_deep_replace`: the specification's
6-location tree (six books, each with a `price`); all six prices are set. -/
theorem put_recursive_descent_deep_replace_witness :
    Put (JMap.ofList [("store", .obj (JMap.ofList [("books", .arr (JList.ofList
        [.obj (JMap.ofList [("author", .vStr "N"), ("title", .vStr "B1"), ("price", .vNum 15)]),
         .obj (JMap.ofList [("author", .vStr "N"), ("title", .vStr "B2"), ("price", .vNum 20)]),
         .obj (JMap.ofList [("author", .vStr "S"), ("title", .vStr "B1"), ("price", .vNum 15)]),
         .obj (JMap.ofList [("author", .vStr "N"), ("title", .vStr "B3"), ("price", .vNum 5)]),
         .obj (JMap.ofList [("author", .vStr "S"), ("title", .vStr "B2"), ("price", .vNum 10)]),
         .obj (JMap.ofList [("author", .vStr "N"), ("title", .vStr "B4"), ("price", .vNum 10)])]))]))])
      "$..price" (.vNum 5) =
    .ok (.obj (JMap.ofList [("store", .obj (JMap.ofList [("books", .arr (JList.ofList
        [.obj (JMap.ofList [("author", .vStr "N"), ("title", .vStr "B1"), ("price", .vNum 5)]),
         .obj (JMap.ofList [("author", .vStr "N"), ("title", .vStr "B2"), ("price", .vNum 5)]),
         .obj (JMap.ofList [("author", .vStr "S"), ("title", .vStr "B1"), ("price", .vNum 5)]),
         .obj (JMap.ofList [("author", .vStr "N"), ("title", .vStr "B3"), ("price", .vNum 5)]),
         .obj (JMap.ofList [("author", .vStr "S"), ("title", .vStr "B2"), ("price", .vNum 5)]),
         .obj (JMap.ofList [("author", .vStr "N"), ("title", .vStr "B4"), ("price", .vNum 5)])]))]))])) :=
  (put_recursive_descent_deep_replace _ (.vNum 5) (by decide) (by decide)).trans (by decide)

/-! ## Claim C6: `Map` runs every mapper independently -/

theorem MapLoop_snoc (rf : String → String → String) (sp : JValue → String) (src : JMap) :
    ∀ (ms : List Mapper) (m : Mapper) (i : ℕ) (dst : JMap)
      (errs : List (ℕ × MapperError)),
    MapLoop rf sp src i dst errs (ms ++ [m]) =
      match MapLoop rf sp src i dst errs ms with
      | .res errs2 d =>
        (match handleMapper rf sp src d m with
         | .ok d2 => .res errs2 d2
         | .err e d2 => .res (errs2 ++ [(i + ms.length, e)]) d2
         | .goPanic => .goPanic)
      | .goPanic => .goPanic
  | [], m, i, dst, errs => by
    cases h : handleMapper rf sp src dst m <;> simp [MapLoop, h]
  | m1 :: tl, m, i, dst, errs => by
    rw [List.cons_append, MapLoop, MapLoop]
    cases h : handleMapper rf sp src dst m1 with
    | ok d2 =>
      dsimp only
      rw [MapLoop_snoc rf sp src tl m (i + 1) d2 errs]
      have harith : i + 1 + tl.length = i + (m1 :: tl).length := by
        simp [List.length_cons]; omega
      rw [harith]
    | err e d2 =>
      dsimp only
      rw [MapLoop_snoc rf sp src tl m (i + 1) d2 (errs ++ [(i, e)])]
      have harith : i + 1 + tl.length = i + (m1 :: tl).length := by
        simp [List.length_cons]; omega
      rw [harith]
    | goPanic => rfl

theorem MapLoop_errors (rf : String → String → String) (sp : JValue → String) (src : JMap) :
    ∀ (ms : List Mapper) (i : ℕ) (dst : JMap) (errs : List (ℕ × MapperError))
      (errs2 : List (ℕ × MapperError)) (d : JMap),
    MapLoop rf sp src i dst errs ms = .res errs2 d →
    ∃ delta, errs2 = errs ++ delta ∧ (∀ p ∈ delta, i ≤ p.1 ∧ p.1 < i + ms.length) ∧
      List.Chain' (fun a b : ℕ × MapperError => a.1 < b.1) delta
  | [], i, dst, errs, errs2, d, h => by
    rw [MapLoop] at h
    cases h
    exact ⟨[], by simp⟩
  | m :: tl, i, dst, errs, errs2, d, h => by
    rw [MapLoop] at h
    cases hh : handleMapper rf sp src dst m with
    | ok d2 =>
      rw [hh] at h
      obtain ⟨delta, h1, h2, h3⟩ := MapLoop_errors rf sp src tl (i + 1) d2 errs errs2 d h
      refine ⟨delta, h1, fun p hp => ?_, h3⟩
      have := h2 p hp
      simp only [List.length_cons]
      omega
    | err e d2 =>
      rw [hh] at h
      obtain ⟨delta, h1, h2, h3⟩ :=
        MapLoop_errors rf sp src tl (i + 1) d2 (errs ++ [(i, e)]) errs2 d h
      refine ⟨(i, e) :: delta, by simpa using h1, fun p hp => ?_, ?_⟩
      · rcases List.mem_cons.mp hp with rfl | hp2
        · simp only [List.length_cons]; omega
        · have := h2 p hp2
          simp only [List.length_cons]
          omega
      · rw [List.chain'_cons']
        exact ⟨fun b hb => by
          have hbm : b ∈ delta := List.mem_of_mem_head? hb
          have := h2 b hbm
          omega, h3⟩
    | goPanic =>
      rw [hh] at h
      cases h

/-- C6: `Map` runs every mapper independently.  First conjunct: appending a
mapper to any batch leaves the earlier mappers' errors and destination
untouched and only appends that mapper's own error (tagged with its index)
when it fails — so one mapper's failure never prevents a later mapper from
running and updating the destination.  Second conjunct: the error list
carries strictly increasing in-range indices, so every failing mapper
contributes exactly one error identifying it and successful mappers
contribute none.  Third conjunct: the specification's scenario — of two
mappers whose first has a missing source path, exactly one error (for
mapper 0) results and mapper 1 still updates the destination. -/
theorem map_mapper_isolation :
    (∀ (rf : String → String → String) (sp : JValue → String) (src dst : JMap)
       (ms : List Mapper) (m : Mapper),
      Map rf sp src dst (ms ++ [m]) =
        match Map rf sp src dst ms with
        | .res errs d =>
          (match handleMapper rf sp src d m with
           | .ok d2 => .res errs d2
           | .err e d2 => .res (errs ++ [(ms.length, e)]) d2
           | .goPanic => .goPanic)
        | .goPanic => .goPanic) ∧
    (∀ (rf : String → String → String) (sp : JValue → String) (src dst : JMap)
       (ms : List Mapper) (errs : List (ℕ × MapperError)) (d : JMap),
      Map rf sp src dst ms = .res errs d →
      (∀ p ∈ errs, p.1 < ms.length) ∧
        List.Chain' (fun a b : ℕ × MapperError => a.1 < b.1) errs) ∧
    (∀ (rf : String → String → String) (sp : JValue → String),
      Map rf sp (.cons "x" (.vNum 1) .nil) .nil
          [⟨"$.missing", "$.y", []⟩, ⟨"$.x", "$.y", []⟩] =
        .res [(0, .getError (.validationError ⟨"missing", .keyNotFound⟩))]
          (.cons "y" (.vNum 1) .nil)) := by
  refine ⟨?_, ?_, ?_⟩
  · intro rf sp src dst ms m
    rw [Map, Map, MapLoop_snoc rf sp src ms m 0 dst []]
    simp
  · intro rf sp src dst ms errs d h
    rw [Map] at h
    obtain ⟨delta, h1, h2, h3⟩ := MapLoop_errors rf sp src ms 0 dst [] errs d h
    rw [h1]
    simp only [List.nil_append]
    exact ⟨fun p hp => by simpa using (h2 p hp).2, h3⟩
  · intro rf sp
    rfl

/-- Witness for `map_mapper_isolation`: its parts applied at the concrete
two-mapper scenario. -/
theorem map_mapper_isolation_witness :
    (∀ p ∈ [((0 : ℕ), MapperError.getError (.validationError ⟨"missing", .keyNotFound⟩))],
      p.1 < 2) ∧
    Map (fun _ s => s) (fun _ => "") (.cons "x" (.vNum 1) .nil) .nil
        [⟨"$.missing", "$.y", []⟩, ⟨"$.x", "$.y", []⟩] =
      .res [(0, .getError (.validationError ⟨"missing", .keyNotFound⟩))]
        (.cons "y" (.vNum 1) .nil) := by
  have hsc := map_mapper_isolation.2.2 (fun _ s => s) (fun _ => "")
  exact ⟨fun p hp => by
    simpa using (map_mapper_isolation.2.1 (fun _ s => s) (fun _ => "")
      (.cons "x" (.vNum 1) .nil) .nil
      [⟨"$.missing", "$.y", []⟩, ⟨"$.x", "$.y", []⟩] _ _ hsc).1 p hp, hsc⟩

/-! ## Claim C5: `Put` and failures of the all-but-last walk -/

/-- C5: when `Put` has parsed the path, is not in the `$..leaf` special
case, and the walk of all segments but the last fails with error `e`:
a `keyNotFound` error is non-fatal — `Put` proceeds to the final phase
using the (auto-vivified) root data as the parent, and may still succeed —
while a `notMap` or `valueNotArray` error (the source-type errors) is
fatal: `Put` returns exactly that error with the final segment's write not
applied (the data is exactly as the pre-pass left it). -/
theorem put_walk_error_policy (data : JMap) (path : String) (value : JValue)
    (nodes : List NodeAccessor) (lastNode : NodeAccessor) (e : DataValidationError)
    (hparse : parseJsonPath path = .ok nodes)
    (hlast : nodes.getLast? = some lastNode)
    (hnotdeep : ¬ (nodes.length ≥ 2 ∧ getName ((nodes.dropLast).getLast?.getD lastNode) = "" ∧
        ¬ isArrayNode lastNode))
    (hwalk : walkWLoop (putPreparedData data path nodes) (.loc []) false
        nodes.dropLast = .err e) :
    (e.errorType = .keyNotFound →
      Put data path value =
        putFinalize (finalPutPhase (putPreparedData data path nodes) (.loc []) lastNode value)) ∧
    ((e.errorType = .notMap ∨ e.errorType = .valueNotArray) →
      Put data path value = .err (.validationError e) (putPreparedData data path nodes)) := by
  constructor
  · intro hk
    unfold Put
    rw [hparse]
    simp only [hlast, hwalk, hk]
    rw [if_neg hnotdeep]
  · intro hor
    unfold Put
    rw [hparse]
    rcases hor with h | h <;>
      · simp only [hlast, hwalk, h]
        rw [if_neg hnotdeep]

/-- Witness for `put_walk_error_policy`.  First conjunct: on empty data and
path `$.*.b.c` the all-but-last walk fails with `keyNotFound` (the pre-pass
created `*`, not `b`), `Put` proceeds with the root as parent and succeeds,
writing `c` at the root.  Second conjunct: on `{"a": 5}` and path
`$.a[0].b` the walk fails with the `valueNotArray` source-type error and
`Put` returns it, the data showing no write of the final segment. -/
theorem put_walk_error_policy_witness :
    Put JMap.nil "$.*.b.c" (.vNum 7) =
      .ok (.obj (.cons "*" (.obj (.cons "b" (.obj (.cons "c" (.obj .nil) .nil)) .nil))
        (.cons "c" (.vNum 7) .nil))) ∧
    Put (.cons "a" (.vNum 5) .nil) "$.a[0].b" (.vNum 1) =
      .err (.validationError ⟨"a", .valueNotArray⟩) (.obj (.cons "a" (.vNum 5) .nil)) := by
  constructor
  · exact ((put_walk_error_policy JMap.nil "$.*.b.c" (.vNum 7)
      [.node "*", .node "b", .node "c"] (.node "c") ⟨"b", .keyNotFound⟩
      (by decide) (by decide) (by decide) (by decide)).1 rfl).trans (by decide)
  · exact ((put_walk_error_policy (.cons "a" (.vNum 5) .nil) "$.a[0].b" (.vNum 1)
      [.arrayIndexedNode "a" [0], .node "b"] (.node "b") ⟨"a", .valueNotArray⟩
      (by decide) (by decide) (by decide) (by decide)).2 (Or.inr rfl)).trans (by decide)

/-- Witness for `sliced_negative_bound_panics` at `{"books": [1,2,3]}`. -/
theorem sliced_negative_bound_panics_witness :
    parseJsonPath "$.books[-1:]" = .ok [.arraySlicedNode "books" (-1) 0] ∧
    Get (.cons "books" (.arr (.cons (.vNum 1) (.cons (.vNum 2) (.cons (.vNum 3) .nil)))) .nil)
      "$.books[-1:]" = .goPanic ∧
    Put (.cons "books" (.arr (.cons (.vNum 1) (.cons (.vNum 2) (.cons (.vNum 3) .nil)))) .nil)
      "$.books[-1:]" (.vNum 9) = .goPanic :=
  sliced_negative_bound_panics _
    (.cons (.vNum 1) (.cons (.vNum 2) (.cons (.vNum 3) .nil))) (by decide) (.vNum 9)

/-! ## Claim C1: Get-then-Put round trip

Auxiliary lemmas about maps, strings, the tokenizer and the parser on pure
field paths `$.k1.k2...kn`, leading to the round-trip theorem. -/

theorem data_mk (l : List Char) : (String.mk l).data = l := rfl

theorem strMk_data (s : String) : String.mk s.data = s := rfl

theorem jmapLookup_set_self : ∀ (m : JMap) (k : String) (v : JValue),
    jmapLookup (jmapSet m k v) k = some v
  | .nil, k, v => by simp [jmapSet, jmapLookup]
  | .cons k2 v2 tl, k, v => by
    by_cases h : k2 = k <;> simp [jmapSet, jmapLookup, h, jmapLookup_set_self tl k v]

theorem mapHasKey_set_self (m : JMap) (k : String) (v : JValue) :
    mapHasKey (jmapSet m k v) k = true := by
  rw [mapHasKey_eq_isSome, jmapLookup_set_self]; rfl

theorem jmapSet_set : ∀ (m : JMap) (k : String) (x y : JValue),
    jmapSet (jmapSet m k x) k y = jmapSet m k y
  | .nil, k, x, y => by simp [jmapSet]
  | .cons k2 v2 tl, k, x, y => by
    by_cases h : k2 = k <;> simp [jmapSet, h, jmapSet_set tl k x y]

theorem jmapSet_get_self (m : JMap) (k : String) (h : mapHasKey m k = true) :
    jmapSet m k (jmapGet m k) = m := by
  rw [mapHasKey_eq_isSome] at h
  obtain ⟨v, hv⟩ := Option.isSome_iff_exists.mp h
  simp only [jmapGet, hv, Option.getD_some]
  exact jmapSet_lookup_self m k v hv

theorem word_ne_empty {k : String} (h : k.data ≠ []) : k ≠ "" := by
  intro he
  rw [he] at h
  exact h rfl

theorem word_ne_star {k : String} (h : k.data.all isWordChar = true) : k ≠ "*" := by
  intro he
  rw [he] at h
  exact absurd h (by decide)

theorem word_not_dot {c : Char} (h : isWordChar c = true) : ¬ c = '.' := by
  rintro rfl; exact absurd h (by decide)

theorem word_not_at {c : Char} (h : isWordChar c = true) : ¬ c = '@' := by
  rintro rfl; exact absurd h (by decide)

theorem getLast?_map {α β : Type} (f : α → β) :
    ∀ (l : List α), (l.map f).getLast? = l.getLast?.map f
  | [] => rfl
  | [a] => rfl
  | a :: b :: t => by
    rw [List.map_cons, List.map_cons, List.getLast?_cons_cons, List.getLast?_cons_cons,
      ← List.map_cons, getLast?_map f (b :: t)]

theorem dropLast_map {α β : Type} (f : α → β) :
    ∀ (l : List α), (l.map f).dropLast = l.dropLast.map f
  | [] => rfl
  | [a] => rfl
  | a :: b :: t => by
    rw [List.map_cons, List.map_cons, List.dropLast_cons₂, ← List.map_cons,
      dropLast_map f (b :: t), List.dropLast_cons₂, List.map_cons]

theorem getLast?_mem {α : Type} : ∀ {l : List α} {x : α}, l.getLast? = some x → x ∈ l
  | [], _, h => by simp at h
  | [a], x, h => by
    simp only [List.getLast?_singleton, Option.some.injEq] at h
    rw [h]; exact List.mem_singleton_self x
  | a :: b :: t, x, h => by
    rw [List.getLast?_cons_cons] at h
    exact List.mem_cons_of_mem a (getLast?_mem h)

theorem words_no_dot {k : String} (h : k.data.all isWordChar = true) : '.' ∉ k.data := by
  intro hm
  exact absurd (List.all_eq_true.mp h '.' hm) (by decide)

theorem words_no_at {k : String} (h : k.data.all isWordChar = true) : '@' ∉ k.data := by
  intro hm
  exact absurd (List.all_eq_true.mp h '@' hm) (by decide)

theorem splitOnChar_not_mem (c : Char) : ∀ (l : List Char), c ∉ l → splitOnChar c l = [l]
  | [], _ => rfl
  | x :: tl, h => by
    rw [List.mem_cons, not_or] at h
    have hx : ¬ x = c := fun he => h.1 he.symm
    simp only [splitOnChar, splitOnChar_not_mem c tl h.2]
    simp [hx]

theorem splitOnChar_sep_append (c : Char) : ∀ (l1 l2 : List Char), c ∉ l1 →
    splitOnChar c (l1 ++ c :: l2) = l1 :: splitOnChar c l2
  | [], l2, _ => by
    obtain ⟨hd, t, hs⟩ := List.exists_cons_of_ne_nil (splitOnChar_ne_nil c l2)
    simp only [List.nil_append, splitOnChar, hs]
    simp
  | x :: l1, l2, h => by
    rw [List.mem_cons, not_or] at h
    have hx : ¬ x = c := fun he => h.1 he.symm
    rw [List.cons_append]
    simp only [splitOnChar, splitOnChar_sep_append c l1 l2 h.2]
    simp [hx]

theorem replacePair_id (a b c d : Char) : ∀ (l : List Char), a ∉ l → replacePair a b c d l = l
  | [], _ => rfl
  | [x], _ => rfl
  | x :: y :: rest, h => by
    rw [List.mem_cons, not_or] at h
    have hx : ¬ (x = a ∧ y = b) := fun he => h.1 he.1.symm
    simp only [replacePair, if_neg hx]
    rw [replacePair_id a b c d (y :: rest) h.2]

theorem containsPair_cons_of_ne (a b x : Char) (hx : ¬ x = a) :
    ∀ (l : List Char), containsPair a b (x :: l) = containsPair a b l
  | [] => by simp [containsPair]
  | y :: rest => by simp [containsPair, hx]

theorem containsPair_eq_false (a b : Char) : ∀ (l : List Char), a ∉ l →
    containsPair a b l = false
  | [], _ => rfl
  | x :: tl, h => by
    rw [List.mem_cons, not_or] at h
    have hx : ¬ x = a := fun he => h.1 he.symm
    rw [containsPair_cons_of_ne a b x hx tl]
    exact containsPair_eq_false a b tl h.2

theorem containsPair_append_of_ne (a b : Char) :
    ∀ (cs l : List Char), (∀ c ∈ cs, ¬ c = a) →
      containsPair a b (cs ++ l) = containsPair a b l
  | [], l, _ => rfl
  | x :: cs, l, h => by
    rw [List.cons_append, containsPair_cons_of_ne a b x (h x (List.mem_cons_self x cs)),
      containsPair_append_of_ne a b cs l (fun c hc => h c (List.mem_cons_of_mem x hc))]

theorem mkFieldPath_data (ks : List String) :
    (mkFieldPath ks).data = '$' :: ks.flatMap (fun k => '.' :: k.data) := rfl

theorem mkFieldPath_no_at (ks : List String)
    (h : ∀ k ∈ ks, k.data.all isWordChar = true) :
    '@' ∉ (mkFieldPath ks).data := by
  rw [mkFieldPath_data]
  intro hm
  rcases List.mem_cons.mp hm with he | hm2
  · exact absurd he (by decide)
  · obtain ⟨k, hk, hmem⟩ := List.mem_flatMap.mp hm2
    rcases List.mem_cons.mp hmem with he | hm3
    · exact absurd he (by decide)
    · exact words_no_at (h k hk) hm3

theorem flatSegs_no_descent : ∀ (ks : List String),
    (∀ k ∈ ks, k.data ≠ [] ∧ k.data.all isWordChar = true) →
    containsPair '.' '.' (ks.flatMap (fun k => '.' :: k.data)) = false
  | [], _ => rfl
  | k :: ks, h => by
    have hk := h k (List.mem_cons_self k ks)
    have hks := fun k2 hm => h k2 (List.mem_cons_of_mem k hm)
    obtain ⟨c, cs, hcs⟩ := List.exists_cons_of_ne_nil hk.1
    have hall : ∀ x ∈ k.data, isWordChar x = true := List.all_eq_true.mp hk.2
    have hc : ¬ c = '.' :=
      word_not_dot (hall c (by rw [hcs]; exact List.mem_cons_self c cs))
    rw [List.flatMap_cons, List.cons_append, hcs, List.cons_append]
    simp only [containsPair]
    rw [containsPair_cons_of_ne '.' '.' c hc,
      containsPair_append_of_ne '.' '.' cs _
        (fun x hx => word_not_dot (hall x (by rw [hcs]; exact List.mem_cons_of_mem c hx))),
      flatSegs_no_descent ks hks]
    simp [hc]

theorem mkFieldPath_no_descent (ks : List String)
    (h : ∀ k ∈ ks, k.data ≠ [] ∧ k.data.all isWordChar = true) :
    jsonPathHasReccursiveDescent (mkFieldPath ks) = false := by
  simp only [jsonPathHasReccursiveDescent]
  rw [mkFieldPath_data, containsPair_cons_of_ne '.' '.' '$' (by decide),
    flatSegs_no_descent ks h]

theorem flatSegs_getLast : ∀ (ks : List String) (kN : String), ks.getLast? = some kN →
    (ks.flatMap (fun k => '.' :: k.data)).getLast? = ('.' :: kN.data).getLast?
  | [], kN, h => by simp at h
  | [k], kN, h => by
    simp only [List.getLast?_singleton, Option.some.injEq] at h
    rw [← h]
    simp [List.flatMap_cons]
  | k :: k2 :: rest, kN, h => by
    rw [List.getLast?_cons_cons] at h
    rw [List.flatMap_cons,
      List.getLast?_append_of_ne_nil _
        (by rw [List.flatMap_cons, List.cons_append]; exact List.cons_ne_nil _ _),
      flatSegs_getLast (k2 :: rest) kN h]

theorem mkFieldPath_getLast (ks : List String) (kN : String) (h : ks.getLast? = some kN)
    (hkN : kN.data ≠ []) (hw : kN.data.all isWordChar = true) :
    ∃ c, (mkFieldPath ks).data.getLast? = some c ∧ isWordChar c = true := by
  obtain ⟨c, cs, hcs⟩ := List.exists_cons_of_ne_nil hkN
  have hne : ks ≠ [] := by rintro rfl; simp at h
  have hflat : ks.flatMap (fun k => '.' :: k.data) ≠ [] := by
    obtain ⟨k1, ks1, rfl⟩ := List.exists_cons_of_ne_nil hne
    rw [List.flatMap_cons, List.cons_append]
    exact List.cons_ne_nil _ _
  rw [mkFieldPath_data,
    show ('$' :: ks.flatMap (fun k => '.' :: k.data)) =
      ['$'] ++ ks.flatMap (fun k => '.' :: k.data) from rfl,
    List.getLast?_append_of_ne_nil _ hflat, flatSegs_getLast ks kN h, hcs,
    List.getLast?_cons_cons]
  have hnn : (c :: cs).getLast? ≠ none := by
    intro hno
    rw [List.getLast?_eq_none_iff] at hno
    exact absurd hno (List.cons_ne_nil c cs)
  obtain ⟨x, hx⟩ := Option.ne_none_iff_exists'.mp hnn
  refine ⟨x, hx, ?_⟩
  have hmem : x ∈ c :: cs := getLast?_mem hx
  rw [← hcs] at hmem
  exact List.all_eq_true.mp hw x hmem

theorem splitOnChar_flatSegs : ∀ (ks : List String) (kd : List Char),
    '.' ∉ kd → (∀ k ∈ ks, k.data.all isWordChar = true) →
    splitOnChar '.' (kd ++ ks.flatMap (fun k => '.' :: k.data)) = kd :: ks.map String.data
  | [], kd, hkd, _ => by
    simp only [List.flatMap_nil, List.append_nil, List.map_nil]
    exact splitOnChar_not_mem '.' kd hkd
  | k :: ks, kd, hkd, h => by
    rw [List.flatMap_cons, List.cons_append, splitOnChar_sep_append '.' kd _ hkd,
      splitOnChar_flatSegs ks k.data (words_no_dot (h k (List.mem_cons_self k ks)))
        (fun k2 hm => h k2 (List.mem_cons_of_mem k hm))]
    rfl

theorem splitJsonPath_fieldPath (ks : List String)
    (h : ∀ k ∈ ks, k.data.all isWordChar = true) :
    splitJsonPath (mkFieldPath ks) = "$" :: ks := by
  simp only [splitJsonPath]
  rw [replacePair_id '@' '.' '@' ':' _ (mkFieldPath_no_at ks h), mkFieldPath_data,
    show ('$' :: ks.flatMap (fun k => '.' :: k.data)) =
      ['$'] ++ ks.flatMap (fun k => '.' :: k.data) from rfl,
    splitOnChar_flatSegs ks ['$'] (by decide) h]
  have hmap : ∀ t ∈ (['$'] :: ks.map String.data),
      (if containsPair '@' ':' t then String.mk (replacePair '@' ':' '@' '.' t)
       else String.mk t) = String.mk t := by
    intro t ht
    rcases List.mem_cons.mp ht with rfl | hm
    · rfl
    · obtain ⟨k, hk, rfl⟩ := List.mem_map.mp hm
      rw [containsPair_eq_false '@' ':' k.data (words_no_at (h k hk))]
      simp
  rw [List.map_congr_left hmap, List.map_cons, List.map_map,
    show (String.mk ∘ String.data) = id from rfl, List.map_id]

theorem splitTokenBracket_words {cs : List Char} (h : cs.all isWordChar = true) :
    splitTokenBracket cs = none := by
  have hd : cs.dropWhile isWordChar = [] :=
    List.dropWhile_eq_nil_iff.mpr (fun x hx => List.all_eq_true.mp h x hx)
  simp only [splitTokenBracket, hd]

theorem nodeFromJsonPathSubNode_word (k : String) (hw : k.data.all isWordChar = true) :
    nodeFromJsonPathSubNode k = some (.node k) := by
  simp only [nodeFromJsonPathSubNode, splitTokenBracket_words hw, hw]
  simp

theorem nodesFromTokens_words : ∀ (ks : List String) (i : ℕ),
    (∀ k ∈ ks, k.data.all isWordChar = true) →
    nodesFromTokens i ks = .ok (ks.map .node)
  | [], _, _ => rfl
  | k :: ks, i, h => by
    simp only [nodesFromTokens, nodeFromJsonPathSubNode_word k (h k (List.mem_cons_self k ks)),
      nodesFromTokens_words ks (i + 1) (fun k2 hm => h k2 (List.mem_cons_of_mem k hm))]
    rfl

theorem parseJsonPath_fieldPath (ks : List String) (hne : ks ≠ [])
    (h : ∀ k ∈ ks, k.data ≠ [] ∧ k.data.all isWordChar = true) :
    parseJsonPath (mkFieldPath ks) = .ok (ks.map .node) := by
  have hw : ∀ k ∈ ks, k.data.all isWordChar = true := fun k hk => (h k hk).2
  have hlastks : ks.getLast? ≠ none := by
    intro hno
    rw [List.getLast?_eq_none_iff] at hno
    exact hne hno
  obtain ⟨kN, hkN⟩ := Option.ne_none_iff_exists'.mp hlastks
  have hkNmem : kN ∈ ks := getLast?_mem hkN
  obtain ⟨c, hc, hcw⟩ :=
    mkFieldPath_getLast ks kN hkN (h kN hkNmem).1 (h kN hkNmem).2
  have hlast : ¬ (mkFieldPath ks).data.getLast? = some '.' := by
    rw [hc]
    intro he
    injection he with he
    exact word_not_dot hcw he
  obtain ⟨k1, ks1, rfl⟩ := List.exists_cons_of_ne_nil hne
  have hstart : startsWithDollarDot (mkFieldPath (k1 :: ks1)) = true := rfl
  simp only [parseJsonPath, hstart]
  rw [if_neg (by simp), if_neg hlast, splitJsonPath_fieldPath (k1 :: ks1) hw]
  exact nodesFromTokens_words (k1 :: ks1) 0 hw

theorem jmapGet_set_self (m : JMap) (k : String) (v : JValue) :
    jmapGet (jmapSet m k v) k = v := by
  rw [jmapGet, jmapLookup_set_self]; rfl

theorem list_getD_of_get? {α : Type} {l : List α} {i : ℕ} {v : α} (h : l.get? i = some v)
    (d : α) : l.getD i d = v := by
  show (l.get? i).getD d = v
  rw [h]
  rfl

theorem resolvePath_append : ∀ (p q : List PathStep) (root : JValue),
    resolvePath root (p ++ q) = (resolvePath root p).bind (fun w => resolvePath w q)
  | [], q, root => by cases root <;> rfl
  | s :: p, q, root => by
    cases root with
    | obj fs =>
      cases s with
      | fld k =>
        rw [List.cons_append]
        simp only [resolvePath]
        cases jmapLookup fs k with
        | none => rfl
        | some v => exact resolvePath_append p q v
      | idx i => rfl
    | arr l =>
      cases s with
      | fld k => rfl
      | idx i =>
        rw [List.cons_append]
        simp only [resolvePath]
        cases (JList.toList l).get? i with
        | none => rfl
        | some v => exact resolvePath_append p q v
    | vNull => cases s <;> rfl
    | vBool b => cases s <;> rfl
    | vNum n => cases s <;> rfl
    | vStr t => cases s <;> rfl

theorem updatePath_append : ∀ (p q : List PathStep) (root w newV : JValue),
    resolvePath root p = some w →
    updatePath root (p ++ q) newV = updatePath root p (updatePath w q newV)
  | [], q, root, w, newV, h => by
    simp only [resolvePath, Option.some.injEq] at h
    rw [List.nil_append, h]
    cases w <;> rfl
  | s :: p, q, root, w, newV, h => by
    cases root with
    | obj fs =>
      cases s with
      | fld k =>
        rw [List.cons_append]
        simp only [resolvePath] at h
        simp only [updatePath]
        cases hl : jmapLookup fs k with
        | none => rw [hl] at h; simp at h
        | some v =>
          rw [hl] at h
          simp only at h
          rw [jmapGet_eq_of_lookup hl, updatePath_append p q v w newV h]
      | idx i => simp [resolvePath] at h
    | arr l =>
      cases s with
      | fld k => simp [resolvePath] at h
      | idx i =>
        rw [List.cons_append]
        simp only [resolvePath] at h
        simp only [updatePath]
        cases hl : (JList.toList l).get? i with
        | none => rw [hl] at h; simp at h
        | some v =>
          rw [hl] at h
          simp only at h
          rw [list_getD_of_get? hl, updatePath_append p q v w newV h]
    | vNull => simp [resolvePath] at h
    | vBool b => simp [resolvePath] at h
    | vNum n => simp [resolvePath] at h
    | vStr t => simp [resolvePath] at h

theorem nodeGet_node (k : String) (m : JMap) (hkey : mapHasKey m k = true) :
    nodeGet (.node k) m = .ok (jmapGet m k) := by
  simp [nodeGet, validateNodeData, getName, isArrayNode, hkey]

theorem walkNodesLoop_fieldChain : ∀ (ks : List String) (m : JMap),
    (∀ k ∈ ks, k.data ≠ [] ∧ k.data.all isWordChar = true) →
    objChainOk m ks = true →
    walkNodesLoop (.obj m) false (ks.map .node) = .ok (objChainGet m ks)
  | [], m, _, _ => rfl
  | [k], m, h, hchain => by
    have hk := h k (List.mem_cons_self k [])
    have hkey : mapHasKey m k = true := by simpa [objChainOk] using hchain
    rw [List.map_cons, List.map_nil, walkNodesLoop]
    simp only [getName]
    rw [if_neg (word_ne_star hk.2), if_neg (word_ne_empty hk.1),
      if_neg (show ¬ isSlice (JValue.obj m) = true by simp [isSlice]),
      if_neg (show ¬ (false : Bool) = true by simp), nodeGet_node k m hkey]
    simp only [objChainGet]
    rfl
  | k :: k2 :: rest, m, h, hchain => by
    have hk := h k (List.mem_cons_self k _)
    obtain ⟨m2, hl, hchain2⟩ :
        ∃ m2, jmapLookup m k = some (.obj m2) ∧ objChainOk m2 (k2 :: rest) = true := by
      simp only [objChainOk] at hchain
      split at hchain
      · rename_i m2 heq
        exact ⟨m2, heq, hchain⟩
      · simp at hchain
    have hkey : mapHasKey m k = true := mapHasKey_of_lookup hl
    have hget : jmapGet m k = .obj m2 := jmapGet_eq_of_lookup hl
    rw [List.map_cons, walkNodesLoop]
    simp only [getName]
    rw [if_neg (word_ne_star hk.2), if_neg (word_ne_empty hk.1),
      if_neg (show ¬ isSlice (JValue.obj m) = true by simp [isSlice]),
      if_neg (show ¬ (false : Bool) = true by simp), nodeGet_node k m hkey, hget]
    show walkNodesLoop (.obj m2) false ((k2 :: rest).map .node) =
      .ok (objChainGet m (k :: k2 :: rest))
    rw [walkNodesLoop_fieldChain (k2 :: rest) m2
      (fun kk hm => h kk (List.mem_cons_of_mem k hm)) hchain2]
    simp only [objChainGet, hl]

theorem Get_fieldChain (m : JMap) (ks : List String) (hne : ks ≠ [])
    (h : ∀ k ∈ ks, k.data ≠ [] ∧ k.data.all isWordChar = true)
    (hchain : objChainOk m ks = true) :
    Get m (mkFieldPath ks) = .ok (objChainGet m ks) := by
  simp only [Get, parseJsonPath_fieldPath ks hne h, walkNodes,
    walkNodesLoop_fieldChain ks m h hchain]

theorem ensure_fieldChain : ∀ (ks : List String) (m : JMap), objChainOk m ks = true →
    ensureDataStrunctureFromNodes (.obj m) (ks.map .node) = .obj (chainEnsure m ks)
  | [], m, _ => rfl
  | [k], m, hchain => by
    have hkey : mapHasKey m k = true := by simpa [objChainOk] using hchain
    cases hl : jmapLookup m k with
    | none =>
      rw [mapHasKey_eq_isSome, hl] at hkey
      exact absurd hkey (by simp)
    | some v =>
      cases v
      case vNull =>
        simp only [List.map_cons, List.map_nil, ensureDataStrunctureFromNodes, isSlice,
          isMap, getName, hl, chainEnsure]
        rw [jmapGet_set_self, jmapSet_set]
        simp
      all_goals
        simp only [List.map_cons, List.map_nil, ensureDataStrunctureFromNodes, isSlice,
          isMap, getName, hl, chainEnsure]
        rw [jmapSet_get_self m k hkey]
        simp
  | k :: k2 :: rest, m, hchain => by
    obtain ⟨m2, hl, hchain2⟩ :
        ∃ m2, jmapLookup m k = some (.obj m2) ∧ objChainOk m2 (k2 :: rest) = true := by
      simp only [objChainOk] at hchain
      split at hchain
      · rename_i m2 heq
        exact ⟨m2, heq, hchain⟩
      · simp at hchain
    have hget : jmapGet m k = .obj m2 := jmapGet_eq_of_lookup hl
    rw [List.map_cons, ensureDataStrunctureFromNodes,
      if_neg (show ¬ isSlice (JValue.obj m) = true by simp [isSlice]),
      if_pos (show isMap (JValue.obj m) = true from rfl)]
    simp only [getName, hl, hget]
    rw [ensure_fieldChain (k2 :: rest) m2 hchain2]
    simp only [chainEnsure, hl]

theorem chainEnsure_single_restore (m : JMap) (k : String) (hkey : mapHasKey m k = true) :
    jmapSet (chainEnsure m [k]) k (jmapGet m k) = m ∧
      mapHasKey (chainEnsure m [k]) k = true := by
  cases hl : jmapLookup m k with
  | none =>
    rw [mapHasKey_eq_isSome, hl] at hkey
    exact absurd hkey (by simp)
  | some v =>
    cases v
    case vNull =>
      simp only [chainEnsure, hl]
      constructor
      · rw [jmapGet_eq_of_lookup hl, jmapSet_set]
        exact jmapSet_lookup_self m k .vNull hl
      · exact mapHasKey_set_self m k _
    all_goals
      simp only [chainEnsure, hl]
      exact ⟨jmapSet_get_self m k hkey, hkey⟩

theorem nodeGetW_node (root : JValue) (k : String) (wd : WData) (m : JMap)
    (hval : valueOfW root wd = .obj m) (hkey : mapHasKey m k = true) :
    nodeGetW root (.node k) wd = .ok (wField wd k) := by
  rw [nodeGetW, hval]
  simp [validateNodeData, getName, isArrayNode, hkey]

theorem walkW_fieldChain : ∀ (ks : List String) (m : JMap) (p : List PathStep)
    (root : JValue), ks ≠ [] →
    (∀ k ∈ ks, k.data ≠ [] ∧ k.data.all isWordChar = true) →
    objChainOk m ks = true →
    resolvePath root p = some (.obj (chainEnsure m ks)) →
    ∃ q kN mF,
      ks.getLast? = some kN ∧
      walkWLoop root (.loc p) false ((ks.dropLast).map .node) = .ok (.loc q) ∧
      resolvePath root q = some (.obj mF) ∧
      mapHasKey mF kN = true ∧
      updatePath root q (.obj (jmapSet mF kN (objChainGet m ks))) =
        updatePath root p (.obj m)
  | [], _, _, _, hne, _, _, _ => absurd rfl hne
  | [k], m, p, root, _, h, hchain, hres => by
    have hkey : mapHasKey m k = true := by simpa [objChainOk] using hchain
    obtain ⟨hrestore, hkeyE⟩ := chainEnsure_single_restore m k hkey
    refine ⟨p, k, chainEnsure m [k], rfl, rfl, hres, hkeyE, ?_⟩
    simp only [objChainGet, hrestore]
  | k :: k2 :: rest, m, p, root, _, h, hchain, hres => by
    have hk := h k (List.mem_cons_self k _)
    obtain ⟨m2, hl, hchain2⟩ :
        ∃ m2, jmapLookup m k = some (.obj m2) ∧ objChainOk m2 (k2 :: rest) = true := by
      simp only [objChainOk] at hchain
      split at hchain
      · rename_i m2 heq
        exact ⟨m2, heq, hchain⟩
      · simp at hchain
    have hE : chainEnsure m (k :: k2 :: rest) =
        jmapSet m k (.obj (chainEnsure m2 (k2 :: rest))) := by
      simp only [chainEnsure, hl]
    rw [hE] at hres
    have hval : valueOfW root (.loc p) =
        .obj (jmapSet m k (.obj (chainEnsure m2 (k2 :: rest)))) := by
      rw [valueOfW, hres]
      rfl
    have hres2 : resolvePath root (p ++ [.fld k]) =
        some (.obj (chainEnsure m2 (k2 :: rest))) := by
      rw [resolvePath_append, hres]
      show resolvePath (.obj (jmapSet m k (.obj (chainEnsure m2 (k2 :: rest)))))
        [.fld k] = _
      simp only [resolvePath, jmapLookup_set_self]
    obtain ⟨q, kN, mF, hlast2, hwalk2, hresq, hkeyF, hupd⟩ :=
      walkW_fieldChain (k2 :: rest) m2 (p ++ [.fld k]) root (List.cons_ne_nil k2 rest)
        (fun kk hm => h kk (List.mem_cons_of_mem k hm)) hchain2 hres2
    refine ⟨q, kN, mF, ?_, ?_, hresq, hkeyF, ?_⟩
    · rw [List.getLast?_cons_cons]
      exact hlast2
    · rw [List.dropLast_cons₂, List.map_cons, walkWLoop]
      simp only [getName]
      rw [if_neg (word_ne_star hk.2), if_neg (word_ne_empty hk.1), hval,
        if_neg (show ¬ isSlice (JValue.obj
          (jmapSet m k (.obj (chainEnsure m2 (k2 :: rest))))) = true by simp [isSlice]),
        if_neg (show ¬ (false : Bool) = true by simp),
        if_pos (show isMap (JValue.obj
          (jmapSet m k (.obj (chainEnsure m2 (k2 :: rest))))) = true from rfl),
        nodeGetW_node root k (.loc p) _ hval (mapHasKey_set_self m k _)]
      show walkWLoop root (.loc (p ++ [.fld k])) false (((k2 :: rest).dropLast).map .node) =
        .ok (.loc q)
      exact hwalk2
    · have hchainget : objChainGet m (k :: k2 :: rest) = objChainGet m2 (k2 :: rest) := by
        simp only [objChainGet, hl]
      rw [hchainget, hupd, updatePath_append p [.fld k] root _ (.obj m2) hres]
      show updatePath root p (.obj (jmapSet (jmapSet m k (.obj (chainEnsure m2 (k2 :: rest)))) k
        (updatePath (jmapGet (jmapSet m k (.obj (chainEnsure m2 (k2 :: rest)))) k) []
          (.obj m2)))) = updatePath root p (.obj m)
      rw [jmapGet_set_self]
      show updatePath root p (.obj (jmapSet (jmapSet m k (.obj (chainEnsure m2 (k2 :: rest)))) k
        (.obj m2))) = updatePath root p (.obj m)
      rw [jmapSet_set, jmapSet_lookup_self m k (.obj m2) hl]

theorem nodePut_node (k : String) (mF : JMap) (value : JValue)
    (hkey : mapHasKey mF k = true) :
    nodePut (.node k) mF value = .ok (jmapSet mF k value) := by
  simp [nodePut, validateNodeData, getName, isArrayNode, hkey]

/-- C1 (amended): the Get-then-Put round trip is an identity on the tree for
paths made of plain field segments only (`$.k1.k2...kn`, each segment a
nonempty word) that resolve through nested objects: if `get` succeeds with
`v`, then `put` of `v` at the same path returns the tree unchanged.  The
claim's full generality is refuted by `put_get_round_trip_counterexample`:
an indexed segment re-wraps the element (`$.a[0]`), and a field path that
fans out across an array (`$.a.b`) broadcasts the collected slice into
every element. -/
theorem put_get_round_trip_fields (m : JMap) (ks : List String) (hne : ks ≠ [])
    (h : ∀ k ∈ ks, k.data ≠ [] ∧ k.data.all isWordChar = true)
    (hchain : objChainOk m ks = true)
    (v : JValue) (hget : Get m (mkFieldPath ks) = .ok v) :
    Put m (mkFieldPath ks) v = .ok (.obj m) := by
  rw [Get_fieldChain m ks hne h hchain] at hget
  injection hget with hv
  subst hv
  obtain ⟨q, kN, mF, hlastks, hwalk, hresq, hkeyF, hupd⟩ :=
    walkW_fieldChain ks m [] (.obj (chainEnsure m ks)) hne h hchain rfl
  have hprep : putPreparedData m (mkFieldPath ks) (ks.map .node) =
      .obj (chainEnsure m ks) := by
    simp only [putPreparedData, mkFieldPath_no_descent ks h]
    rw [if_pos (by simp)]
    exact ensure_fieldChain ks m hchain
  have hlastnodes : (ks.map NodeAccessor.node).getLast? = some (.node kN) := by
    rw [getLast?_map, hlastks]
    rfl
  have hguard : ¬ ((ks.map NodeAccessor.node).length ≥ 2 ∧
      getName (((ks.map NodeAccessor.node).dropLast).getLast?.getD (.node kN)) = "" ∧
      ¬ isArrayNode (.node kN) = true) := by
    rintro ⟨hlen, hname, -⟩
    rw [List.length_map] at hlen
    have hdne : ks.dropLast ≠ [] := by
      have hpos : 0 < ks.dropLast.length := by
        rw [List.length_dropLast]
        omega
      exact List.ne_nil_of_length_pos hpos
    obtain ⟨kp, hkp⟩ := Option.ne_none_iff_exists'.mp
      (show ks.dropLast.getLast? ≠ none by
        intro hno
        rw [List.getLast?_eq_none_iff] at hno
        exact hdne hno)
    rw [dropLast_map, getLast?_map, hkp] at hname
    simp only [Option.map_some', Option.getD_some, getName] at hname
    have hkpmem : kp ∈ ks := List.dropLast_subset ks (getLast?_mem hkp)
    exact word_ne_empty (h kp hkpmem).1 hname
  have hvalq : valueOfW (.obj (chainEnsure m ks)) (.loc q) = .obj mF := by
    rw [valueOfW, hresq]
    rfl
  have hfinal : finalPutPhase (.obj (chainEnsure m ks)) (.loc q) (.node kN)
      (objChainGet m ks) = .ok (.obj m) := by
    rw [finalPutPhase, hvalq,
      if_neg (show ¬ isSlice (JValue.obj mF) = true by simp [isSlice])]
    dsimp only
    rw [nodePut_node kN mF _ hkeyF]
    show GoResP.ok (applyAtW (.obj (chainEnsure m ks)) (.loc q)
      (.obj (jmapSet mF kN (objChainGet m ks)))) = .ok (.obj m)
    show GoResP.ok (updatePath (.obj (chainEnsure m ks)) q
      (.obj (jmapSet mF kN (objChainGet m ks)))) = .ok (.obj m)
    rw [hupd]
    rfl
  simp only [Put, parseJsonPath_fieldPath ks hne h, hprep, hlastnodes]
  rw [if_neg hguard, dropLast_map, hwalk]
  simp only [putFinalize, hfinal]

/-- C1 counterexample (the claim as stated is false): both paths below
contain no recursive descent, no filter and no slice segment, yet
`put(data, P, get(data, P))` changes the tree.  First conjunct pair: on
`{"a": [1]}` with the indexed path `$.a[0]`, `get` returns the projected
slice `[1]` and `put` stores that slice back into element 0, producing
`{"a": [[1]]}`.  Second pair: on `{"a": [{"b": 1}, {"b": 2}]}` with the
field path `$.a.b`, `get` fans out to `[1, 2]` and `put` broadcasts that
whole slice to `b` of every element. -/
theorem put_get_round_trip_counterexample :
    (Get (.cons "a" (.arr (.cons (.vNum 1) .nil)) .nil) "$.a[0]" =
        .ok (.arr (.cons (.vNum 1) .nil)) ∧
      Put (.cons "a" (.arr (.cons (.vNum 1) .nil)) .nil) "$.a[0]"
          (.arr (.cons (.vNum 1) .nil)) =
        .ok (.obj (.cons "a" (.arr (.cons (.arr (.cons (.vNum 1) .nil)) .nil)) .nil))) ∧
    (Get (.cons "a" (.arr (.cons (.obj (.cons "b" (.vNum 1) .nil))
          (.cons (.obj (.cons "b" (.vNum 2) .nil)) .nil))) .nil) "$.a.b" =
        .ok (.arr (.cons (.vNum 1) (.cons (.vNum 2) .nil))) ∧
      Put (.cons "a" (.arr (.cons (.obj (.cons "b" (.vNum 1) .nil))
          (.cons (.obj (.cons "b" (.vNum 2) .nil)) .nil))) .nil) "$.a.b"
          (.arr (.cons (.vNum 1) (.cons (.vNum 2) .nil))) =
        .ok (.obj (.cons "a" (.arr
          (.cons (.obj (.cons "b" (.arr (.cons (.vNum 1) (.cons (.vNum 2) .nil))) .nil))
            (.cons (.obj (.cons "b" (.arr (.cons (.vNum 1) (.cons (.vNum 2) .nil))) .nil))
              .nil))) .nil))) := by
  decide

/-- Witness for `put_get_round_trip_fields` on `{"a": {"b": 5}}` with the
path `$.a.b`. -/
theorem put_get_round_trip_fields_witness :
    Put (.cons "a" (.obj (.cons "b" (.vNum 5) .nil)) .nil) "$.a.b" (.vNum 5) =
      .ok (.obj (.cons "a" (.obj (.cons "b" (.vNum 5) .nil)) .nil)) := by
  have hpath : mkFieldPath ["a", "b"] = "$.a.b" := by decide
  have h := put_get_round_trip_fields (.cons "a" (.obj (.cons "b" (.vNum 5) .nil)) .nil)
    ["a", "b"] (by decide) (by decide) (by decide) (.vNum 5) (by decide)
  rw [hpath] at h
  exact h

end Jsonmanu
